import Mathlib

/-!
Verification of the Links Notation codec (`src/lino.lib.mjs`) of the
`konard/follow` repository.

The codec (`LinksNotationManager`) converts between a parenthesized text
format and (a) flat lists of primitive values, (b) JSON-like trees, with
file-backed persistence.  The definitions below are a shallow embedding of
that module:

* JavaScript strings are Lean `String`s; JS numbers are modelled as the
  integers that this repository actually stores (chat identifiers and
  counters).  The value JS `Number(s)` produces for *non-integral* numeric
  literals (fractions, exponents, `Infinity`) is not modelled — no theorem
  in this file depends on such a value — but the *classification* of a
  string as numeric (`isNaN` testing) is modelled in full.
* The third-party parser `@linksplatform/protocols-lino` is not part of the
  repository source; it is modelled from the specification of the format
  (references are bare or quoted atomic tokens, quoting doubles the quote
  character; links are parenthesized sequences; whitespace separates
  elements), producing the `id`/`values` records the library consumes.
* The filesystem is modelled as a partial map from file names to contents,
  and `process.exit` as an explicit result constructor.
-/

namespace Follow

/-! ## JavaScript character and string primitives -/

/-- The character class of the JS regexp `\s` (and of `String.prototype.trim`). -/
def jsWhitespace (c : Char) : Bool :=
  decide (c.toNat ∈ ([9, 10, 11, 12, 13, 32, 0xa0, 0x1680, 0x2028, 0x2029,
      0x202f, 0x205f, 0x3000, 0xfeff] : List Nat) ∨
    (0x2000 ≤ c.toNat ∧ c.toNat ≤ 0x200a))

/-- JS `String.prototype.trim`. -/
def jsTrim (s : String) : String :=
  ⟨((s.data.dropWhile jsWhitespace).reverse.dropWhile jsWhitespace).reverse⟩

/-- Numeric value of a list of decimal digits. -/
def digitsVal (l : List Char) : Nat :=
  l.foldl (fun a c => 10 * a + (c.toNat - 48)) 0

def isHexDigit (c : Char) : Bool :=
  c.isDigit || decide ('a' ≤ c ∧ c ≤ 'f') || decide ('A' ≤ c ∧ c ≤ 'F')

def hexDigitVal (c : Char) : Nat :=
  if c.isDigit then c.toNat - 48
  else if decide ('a' ≤ c ∧ c ≤ 'f') then c.toNat - 87
  else c.toNat - 55

def hexVal (l : List Char) : Nat :=
  l.foldl (fun a c => 16 * a + hexDigitVal c) 0

def isOctDigit (c : Char) : Bool := decide ('0' ≤ c ∧ c ≤ '7')

def octVal (l : List Char) : Nat :=
  l.foldl (fun a c => 8 * a + (c.toNat - 48)) 0

def isBinDigit (c : Char) : Bool := c == '0' || c == '1'

def binVal (l : List Char) : Nat :=
  l.foldl (fun a c => 2 * a + (c.toNat - 48)) 0

/-- JS `parseInt(s)` (radix argument omitted, as in the source): skip leading
whitespace, optional sign, auto-detect a `0x`/`0X` prefix (radix 16),
otherwise read the longest prefix of decimal digits; `none` models `NaN`. -/
def jsParseInt (s : String) : Option Int :=
  let l := s.data.dropWhile jsWhitespace
  let neg := l.head? == some '-'
  let body := if l.head? == some '-' || l.head? == some '+' then l.tail else l
  let isHex := body.head? == some '0' &&
    (body.tail.head? == some 'x' || body.tail.head? == some 'X')
  if isHex then
    let h := body.tail.tail.takeWhile isHexDigit
    if h.isEmpty then none
    else some (if neg then -(hexVal h : Int) else (hexVal h : Int))
  else
    let d := body.takeWhile Char.isDigit
    if d.isEmpty then none
    else some (if neg then -(digitsVal d : Int) else (digitsVal d : Int))

/-- JS `s.match(/\d+/g)`: the maximal runs of decimal digits of `s`, in order
(accumulator holds the current run, reversed). -/
def digitRunsAux : List Char → List Char → List String
  | cur, [] => if cur.isEmpty then [] else [⟨cur.reverse⟩]
  | cur, c :: cs =>
    if c.isDigit then digitRunsAux (c :: cur) cs
    else if cur.isEmpty then digitRunsAux [] cs
    else ⟨cur.reverse⟩ :: digitRunsAux [] cs

def digitRuns (s : String) : List String := digitRunsAux [] s.data

/-- Exponent suffix of a JS decimal literal: empty, or `e`/`E`, an optional
sign and at least one digit. -/
def jsExpTail (l : List Char) : Bool :=
  match l with
  | [] => true
  | e :: r =>
    if e == 'e' || e == 'E' then
      let r2 := if r.head? == some '+' || r.head? == some '-' then r.tail else r
      !r2.isEmpty && r2.all Char.isDigit
    else false

/-- Shape of a JS decimal literal: `digits [. digits] [exp]` or `. digits [exp]`. -/
def jsDecimalShape (l : List Char) : Bool :=
  if l.head? == some '.' then
    let r := l.tail
    let d := r.takeWhile Char.isDigit
    !d.isEmpty && jsExpTail (r.drop d.length)
  else
    let d := l.takeWhile Char.isDigit
    if d.isEmpty then false
    else
      let r := l.drop d.length
      if r.head? == some '.' then
        jsExpTail (r.tail.drop (r.tail.takeWhile Char.isDigit).length)
      else jsExpTail r

/-- Shape of a JS hex/octal/binary integer literal (no sign is allowed). -/
def jsRadixShape (l : List Char) : Bool :=
  match l with
  | c0 :: x :: r =>
    if c0 == '0' then
      if x == 'x' || x == 'X' then !r.isEmpty && r.all isHexDigit
      else if x == 'o' || x == 'O' then !r.isEmpty && r.all isOctDigit
      else if x == 'b' || x == 'B' then !r.isEmpty && r.all isBinDigit
      else false
    else false
  | _ => false

/-- `jsNumericShape s` holds exactly when JS `Number(s)` is not `NaN`:
after trimming, the string is empty (`Number('') = 0`), a radix literal, or
an optionally signed `Infinity` or decimal literal. -/
def jsNumericShape (s : String) : Bool :=
  let t := (jsTrim s).data
  if t.isEmpty then true
  else if jsRadixShape t then true
  else
    let t2 := if t.head? == some '+' || t.head? == some '-' then t.tail else t
    if t2 = ['I', 'n', 'f', 'i', 'n', 'i', 't', 'y'] then true
    else jsDecimalShape t2

/-- Value of JS `Number(s)` on the integral literals this repository ever
produces (optionally signed decimal digit strings, and radix literals).  On
other numeric shapes (fractions, exponents, `Infinity`) the result is a
placeholder; no theorem below depends on it. -/
def jsNumberVal (s : String) : Int :=
  let t := (jsTrim s).data
  if jsRadixShape t then
    match t with
    | _ :: x :: r =>
      if x == 'x' || x == 'X' then (hexVal r : Int)
      else if x == 'o' || x == 'O' then (octVal r : Int)
      else (binVal r : Int)
    | _ => 0
  else
    let body := if t.head? == some '+' || t.head? == some '-' then t.tail else t
    let mag : Int := if !body.isEmpty && body.all Char.isDigit then (digitsVal body : Int) else 0
    if t.head? == some '-' then -mag else mag

/-- JS `Array.prototype.join(sep)` on a list of strings. -/
def jsJoin (sep : String) : List String → String
  | [] => ""
  | a :: as => as.foldl (fun acc x => acc ++ sep ++ x) a

/-! ## Primitive values

`Prim` models the JS primitives the codec handles at its flat-list
interface: numbers, booleans and strings (plus `null`, which
`_parseReference` can produce). -/

inductive Prim where
  | null
  | bool (b : Bool)
  | num (n : Int)
  | str (s : String)
deriving Repr, DecidableEq

/-- JS `String(v)` on a primitive. -/
def jsStringOfPrim : Prim → String
  | .null => "null"
  | .bool true => "true"
  | .bool false => "false"
  | .num n => n.repr
  | .str s => s

/-- `_parseReference` (src/lino.lib.mjs:369): parse a reference to its
primitive value — boolean, then `null`, then number, then string.  The
argument is the parsed `id`, which the library may pass as JS `null`
(`String(null) = "null"`). -/
def parseReference (ref : Option String) : Prim :=
  let str := match ref with
    | none => "null"
    | some s => s
  if str = "true" then .bool true
  else if str = "false" then .bool false
  else if str = "null" then .null
  else if jsNumericShape str && !(jsTrim str).isEmpty then .num (jsNumberVal str)
  else .str str

/-- Shorthand for `parseReference` on a present id. -/
def parseRefS (s : String) : Prim := parseReference (some s)

/-! ## escapeReference (src/lino.lib.mjs:155) -/

/-- The test `/[\s()'"]/.test(str)` of `escapeReference`. -/
def needsEscapingB (s : String) : Bool :=
  s.data.any (fun c => jsWhitespace c || c == '(' || c == ')' || c == '\'' || c == '"')

/-- Character-list form of `str.replace(/q/g, qq)`: every occurrence of `q`
is doubled. -/
def dblList (q : Char) : List Char → List Char
  | [] => []
  | c :: cs => if c = q then c :: c :: dblList q cs else c :: dblList q cs

/-- `str.replace(/q/g, qq)` for a quote character `q`: every occurrence of
`q` is doubled. -/
def doubleQuoteChar (q : Char) (s : String) : String :=
  ⟨dblList q s.data⟩

/-- `escapeReference` (src/lino.lib.mjs:155), translated branch for branch:
numbers and booleans render bare; a string renders bare unless it contains
whitespace, a quote or a parenthesis; quoted strings double the chosen
quote character when both kinds occur. -/
def escapeReference (value : Prim) : String :=
  match value with
  | .num n => n.repr
  | .bool b => cond b "true" "false"
  | _ =>
    let str := jsStringOfPrim value
    if !needsEscapingB str then str
    else if str.data.contains '\'' && !(str.data.contains '"') then
      "\"" ++ str ++ "\""
    else if str.data.contains '"' && !(str.data.contains '\'') then
      "'" ++ str ++ "'"
    else if str.data.contains '\'' && str.data.contains '"' then
      let singleQuoteCount := str.data.count '\''
      let doubleQuoteCount := str.data.count '"'
      if doubleQuoteCount < singleQuoteCount then
        "\"" ++ doubleQuoteChar '"' str ++ "\""
      else
        "'" ++ doubleQuoteChar '\'' str ++ "'"
    else "'" ++ str ++ "'"

/-! ## format (src/lino.lib.mjs:111) -/

/-- `format` (src/lino.lib.mjs:111): `()` on the empty list, otherwise each
value interpolated (`` `  ${value}` ``, i.e. `String(value)` with a
two-space indent) joined by newlines between parenthesis lines.  A JS
`null`/missing argument also yields `()` (the `!values` guard); the model
takes the list only. -/
def format (values : List Prim) : String :=
  if values.isEmpty then "()"
  else "(\n" ++ jsJoin "\n" (values.map (fun value => "  " ++ jsStringOfPrim value)) ++ "\n)"

/-! ## JSON trees

JSON values as the codec handles them: `null`, booleans, numbers, strings,
arrays, and string-keyed objects whose entries keep JS insertion order.
The list types are mutualized so that every conversion below is a plain
structural recursion. -/

mutual
inductive Json where
  | null
  | bool (b : Bool)
  | num (n : Int)
  | str (s : String)
  | arr (elems : JList)
  | obj (entries : JEntries)
inductive JList where
  | nil
  | cons (head : Json) (tail : JList)
inductive JEntries where
  | nil
  | cons (key : String) (val : Json) (tail : JEntries)
end

def primToJson : Prim → Json
  | .null => .null
  | .bool b => .bool b
  | .num n => .num n
  | .str s => .str s

/-- The `typeof result[0] === 'string' || 'number' || 'boolean' || result[0] === null`
test of `linoToJson`. -/
def isPrimJsonB : Json → Bool
  | .null => true
  | .bool _ => true
  | .num _ => true
  | .str _ => true
  | .arr _ => false
  | .obj _ => false

/-! ## The parsed Links Notation tree

Modelled from the spec: the parser `@linksplatform/protocols-lino` consumed
by `lino.lib.mjs` is a third-party package, not part of this repository's
sources.  Its output records, as the library reads them, carry an `id`
(a string, or JS `null`) and a `values` array of child records: a
*Reference* parses to a record with the token text as `id` and no values,
the empty Link `()` to a record with `null` id and no values, and a Link
with elements to a record with `null` id whose `values` are the parsed
elements. -/

mutual
inductive LNode where
  | mk (id : Option String) (values : LList)
inductive LList where
  | nil
  | cons (head : LNode) (tail : LList)
end

def LNode.id : LNode → Option String
  | .mk i _ => i

def LNode.values : LNode → LList
  | .mk _ v => v

/-- A parsed Reference: a record with the token text as id and no values. -/
def refNode (s : String) : LNode := .mk (some s) .nil

def LList.length : LList → Nat
  | .nil => 0
  | .cons _ t => t.length + 1

def LList.all (p : LNode → Bool) : LList → Bool
  | .nil => true
  | .cons h t => p h && t.all p

def LList.toList : LList → List LNode
  | .nil => []
  | .cons h t => h :: t.toList

def LList.ofList : List LNode → LList
  | [] => .nil
  | h :: t => .cons h (LList.ofList t)

/-! ## The notation text parser

Modelled from the spec: tokens are parentheses and references; a reference
is either a bare run of characters containing no whitespace, quote or
parenthesis, or a run enclosed in single or double quotes in which the
enclosing quote character is escaped by doubling; whitespace separates
tokens; parentheses delimit Links.  Malformed text (an unterminated quote,
an unmatched parenthesis) is a parse error, modelled as `none`. -/

inductive Tok where
  | lp
  | rp
  | tok (s : String)
deriving Repr, DecidableEq

def isQuoteChar (c : Char) : Bool := c == '\'' || c == '"'

/-- A character that can appear in a bare reference token. -/
def bareChar (c : Char) : Bool :=
  !jsWhitespace c && c != '(' && c != ')' && !isQuoteChar c

/-- Tokenizer state: between tokens, inside a bare token (accumulator
reversed), inside a quoted token, or just after a quote character inside a
quoted token (which either doubles into a literal quote or ends the token). -/
inductive TokState where
  | base
  | bare (acc : List Char)
  | quoted (q : Char) (acc : List Char)
  | quoteSeen (q : Char) (acc : List Char)

def tokFlush : TokState → Option (List Tok)
  | .base => some []
  | .bare acc => some [.tok ⟨acc.reverse⟩]
  | .quoted _ _ => none
  | .quoteSeen _ acc => some [.tok ⟨acc.reverse⟩]

def tokRun : TokState → List Char → Option (List Tok)
  | st, [] => tokFlush st
  | .base, c :: cs =>
    if jsWhitespace c then tokRun .base cs
    else if c = '(' then (tokRun .base cs).map (.lp :: ·)
    else if c = ')' then (tokRun .base cs).map (.rp :: ·)
    else if isQuoteChar c then tokRun (.quoted c []) cs
    else tokRun (.bare [c]) cs
  | .bare acc, c :: cs =>
    if jsWhitespace c then (tokRun .base cs).map (.tok ⟨acc.reverse⟩ :: ·)
    else if c = '(' then (tokRun .base cs).map (fun ts => .tok ⟨acc.reverse⟩ :: .lp :: ts)
    else if c = ')' then (tokRun .base cs).map (fun ts => .tok ⟨acc.reverse⟩ :: .rp :: ts)
    else if isQuoteChar c then (tokRun (.quoted c []) cs).map (.tok ⟨acc.reverse⟩ :: ·)
    else tokRun (.bare (c :: acc)) cs
  | .quoted q acc, c :: cs =>
    if c = q then tokRun (.quoteSeen q acc) cs
    else tokRun (.quoted q (c :: acc)) cs
  | .quoteSeen q acc, c :: cs =>
    if c = q then tokRun (.quoted q (q :: acc)) cs
    else if jsWhitespace c then (tokRun .base cs).map (.tok ⟨acc.reverse⟩ :: ·)
    else if c = '(' then (tokRun .base cs).map (fun ts => .tok ⟨acc.reverse⟩ :: .lp :: ts)
    else if c = ')' then (tokRun .base cs).map (fun ts => .tok ⟨acc.reverse⟩ :: .rp :: ts)
    else if isQuoteChar c then (tokRun (.quoted c []) cs).map (.tok ⟨acc.reverse⟩ :: ·)
    else (tokRun (.bare [c]) cs).map (.tok ⟨acc.reverse⟩ :: ·)

def tokenize (s : String) : Option (List Tok) := tokRun .base s.data

/-- Parse a token sequence into a list of parsed elements, stopping at a
closing parenthesis or the end of input; fuel bounds the recursion (any
fuel exceeding the token count is enough). -/
def parseMany : Nat → List Tok → Option (LList × List Tok)
  | 0, _ => none
  | _ + 1, [] => some (.nil, [])
  | _ + 1, .rp :: ts => some (.nil, .rp :: ts)
  | fuel + 1, .tok s :: ts =>
    (parseMany fuel ts).map (fun r => (.cons (refNode s) r.1, r.2))
  | fuel + 1, .lp :: ts =>
    match parseMany fuel ts with
    | some (ns, .rp :: r) =>
      (parseMany fuel r).map (fun r' => (.cons (.mk none ns) r'.1, r'.2))
    | _ => none

/-- Modelled from the spec: `parser.parse` — tokenize, then parse the
top-level sequence of notation values; `none` is a thrown `ParseError`. -/
def parseLino (s : String) : Option LList :=
  match tokenize s with
  | none => none
  | some ts =>
    match parseMany (ts.length + 1) ts with
    | some (ns, []) => some ns
    | _ => none

/-! ## The extraction functions of `LinksNotationManager` -/

/-- The result of reading `value.id || value` on a parsed element: the id
string when it is truthy, otherwise the raw record. -/
inductive ParsedVal where
  | str (s : String)
  | node (n : LNode)

/-- `value.id || value` on each element of a values array. -/
def extractVals : LList → List ParsedVal
  | .nil => []
  | .cons v t =>
    (match v.id with
      | some s => if s = "" then .node v else .str s
      | none => .node v) :: extractVals t

/-- `parse` (src/lino.lib.mjs:15): falsy input yields `[]`; otherwise the
values of the first parsed link (via `value.id || value`), or the link's
own id when it has no values and a truthy id.  `none` models the
`ParseError` the underlying parser throws on malformed input. -/
def parse : Option String → Option (List ParsedVal)
  | none => some []
  | some input =>
    if input = "" then some []
    else
      match parseLino input with
      | none => none
      | some .nil => some []
      | some (.cons link _) =>
        some (match link.values with
          | .cons v t => extractVals (.cons v t)
          | .nil =>
            match link.id with
            | some id => if id = "" then [] else [.str id]
            | none => [])

/-- `parseInt(value.id || value)` on each element, keeping non-`NaN` results
(the body of the `parseNumericIds` values loop). -/
def numericFromVals : LList → List Int
  | .nil => []
  | .cons v t =>
    match (match v.id with
      | some s => if s = "" then none else jsParseInt s
      | none => none) with
    | some n => n :: numericFromVals t
    | none => numericFromVals t

/-- `parseNumericIds` (src/lino.lib.mjs:44): like `parse` but each element
goes through `parseInt`, dropping `NaN`; a bare id is mined for digit runs
(`id.match(/\d+/g)`) instead. -/
def parseNumericIds : Option String → Option (List Int)
  | none => some []
  | some input =>
    if input = "" then some []
    else
      match parseLino input with
      | none => none
      | some .nil => some []
      | some (.cons link _) =>
        some (match link.values with
          | .cons v t => numericFromVals (.cons v t)
          | .nil =>
            match link.id with
            | some id =>
              if id = "" then [] else (digitRuns id).filterMap jsParseInt
            | none => [])

/-- The `typeof linkStr === 'string'` filter of the `parseStringValues`
values loop: kept exactly when `value.id || value` is a string. -/
def stringFromVals : LList → List String
  | .nil => []
  | .cons v t =>
    match v.id with
    | some s => if s = "" then stringFromVals t else s :: stringFromVals t
    | none => stringFromVals t

/-- `parseStringValues` (src/lino.lib.mjs:78). -/
def parseStringValues : Option String → Option (List String)
  | none => some []
  | some input =>
    if input = "" then some []
    else
      match parseLino input with
      | none => none
      | some .nil => some []
      | some (.cons link _) =>
        some (match link.values with
          | .cons v t => stringFromVals (.cons v t)
          | .nil =>
            match link.id with
            | some id => if id = "" then [] else [id]
            | none => [])

/-! ## jsonToLino (src/lino.lib.mjs:221) -/

mutual
/-- `jsonToLino`: primitives render as references (strings through
`escapeReference`), arrays as `(e1 e2 ...)`, objects as
`((k1 v1) (k2 v2) ...)`, empty containers as `()`.  A JS `undefined`
argument takes the same branch as `null`. -/
def jsonToLino : Json → String
  | .null => "null"
  | .bool b => cond b "true" "false"
  | .num n => n.repr
  | .str s => escapeReference (.str s)
  | .arr .nil => "()"
  | .arr (.cons e t) => "(" ++ jsJoin " " (jsonToLinoList (.cons e t)) ++ ")"
  | .obj .nil => "()"
  | .obj (.cons k v t) => "(" ++ jsJoin " " (jsonToLinoEntries (.cons k v t)) ++ ")"
def jsonToLinoList : JList → List String
  | .nil => []
  | .cons e t => jsonToLino e :: jsonToLinoList t
def jsonToLinoEntries : JEntries → List String
  | .nil => []
  | .cons k v t =>
    ("(" ++ escapeReference (.str k) ++ " " ++ jsonToLino v ++ ")") :: jsonToLinoEntries t
end

/-! ## _convertParsedToJson (src/lino.lib.mjs:308) -/

def isNumPrim : Prim → Bool
  | .num _ => true
  | _ => false

/-- The per-child test of `allPairs` (src/lino.lib.mjs:330): the child is
a link of exactly two elements whose first element has an `id` other than
JS `undefined` (always true of parsed records, whose ids are
string-or-null), has no child values, and whose id does not parse to a
number. -/
def childPairB (child : LNode) : Bool :=
  match child.values with
  | .cons k (.cons _ .nil) =>
    (match k.values with
      | .nil => true
      | _ => false) &&
    !isNumPrim (parseReference k.id)
  | _ => false

/-- The `allPairs` test (src/lino.lib.mjs:329): `element.values.every(...)`. -/
def allPairsB (vs : LList) : Bool :=
  vs.all childPairB

/-- Ordinary JS own-property assignment on a plain object: overwrites the
value at the first occurrence of the key, otherwise appends. -/
def jsObjInsert : JEntries → String → Json → JEntries
  | .nil, k, v => .cons k v .nil
  | .cons k' v' t, k, v =>
    if k' = k then .cons k' v t else .cons k' v' (jsObjInsert t k v)

/-- JS property assignment `obj[key] = value` on a plain object: the key
`"__proto__"` hits the inherited `Object.prototype.__proto__` accessor and
creates no own property (the entry is silently dropped); every other key
overwrites in place or appends. -/
def jsObjAssign (l : JEntries) (k : String) (v : Json) : JEntries :=
  if k = "__proto__" then l else jsObjInsert l k v

def jsObjFromPairsAux : JEntries → JEntries → JEntries
  | acc, .nil => acc
  | acc, .cons k v t => jsObjFromPairsAux (jsObjAssign acc k v) t

/-- The object-building loop of `_convertParsedToJson`: sequential JS
property assignments over the raw key/value pairs. -/
def jsObjFromPairs (l : JEntries) : JEntries := jsObjFromPairsAux .nil l

mutual
/-- `_convertParsedToJson` (src/lino.lib.mjs:308): a record with no values
is the empty link (`null` id, giving `[]`) or a reference (parsed as a
primitive); a record with values is an object when `allPairs` holds and an
array otherwise.  (The `typeof element === 'string' || 'number'` entry
branch never fires on parsed records, and the trailing `return null` is
unreachable since `values` is always an array.) -/
def convertParsedToJson : LNode → Json
  | .mk none .nil => .arr .nil
  | .mk (some s) .nil => primToJson (parseRefS s)
  | .mk _ (.cons v t) =>
    if allPairsB (.cons v t) then .obj (jsObjFromPairs (rawEntries (.cons v t)))
    else .arr (convertAll (.cons v t))
/-- The key/value pairs read off the children in order: key is
`String(_parseReference(child.values[0].id))` (the JS property-key
coercion), value is the recursive conversion of `child.values[1]`.
Children that are not two-element links cannot occur under the `allPairs`
guard. -/
def rawEntries : LList → JEntries
  | .nil => .nil
  | .cons child t =>
    match child with
    | .mk _ (.cons k (.cons v .nil)) =>
      .cons (jsStringOfPrim (parseReference k.id)) (convertParsedToJson v) (rawEntries t)
    | _ => rawEntries t
def convertAll : LList → JList
  | .nil => .nil
  | .cons h t => .cons (convertParsedToJson h) (convertAll t)
end

/-- `linoToJson` (src/lino.lib.mjs:281): falsy or non-string input gives
JS `null` (modelled as `none` input or the empty string); an input whose
parse yields no top-level elements gives `null`; otherwise the first parsed
element is converted, and a one-element array holding a primitive is
unwrapped to that primitive.  The outer `Option` is a propagated
`ParseError`. -/
def linoToJson : Option String → Option Json
  | none => some .null
  | some lino =>
    if lino = "" then some .null
    else
      match parseLino lino with
      | none => none
      | some .nil => some .null
      | some (.cons e _) =>
        some (match convertParsedToJson e with
          | .arr (.cons x .nil) => if isPrimJsonB x then x else .arr (.cons x .nil)
          | r => r)

/-! ## File persistence (src/lino.lib.mjs:405, 419, 439, 447, 455)

The filesystem is a partial map from full file paths to contents; the
storage directory is the `storageDir` field of the manager.  `OpResult`
distinguishes a returned value, a thrown error (a `ParseError` bubbling out
of a loader), and a `process.exit` call. -/

abbrev FileSystem := String → Option String

inductive OpResult (α : Type) where
  | ok (value : α)
  | err (message : String)
  | exit (code : Nat) (message : String)

def OpResult.isExit {α : Type} : OpResult α → Bool
  | .exit _ _ => true
  | _ => false

/-- `getFilePath` (src/lino.lib.mjs:447): `path.join(this.storageDir, filename)`. -/
def getFilePath (storageDir filename : String) : String :=
  storageDir ++ "/" ++ filename

/-- `fileExists` (src/lino.lib.mjs:439). -/
def fileExists (files : FileSystem) (storageDir filename : String) : OpResult Bool :=
  .ok (files (getFilePath storageDir filename)).isSome

/-- The record `loadFromLino` builds from an existing file's content. -/
structure LinoRecord where
  raw : String
  parsed : List ParsedVal
  numericIds : List Int
  stringValues : List String
  file : String

/-- `loadFromLino` (src/lino.lib.mjs:419): a missing file returns JS `null`
(`ok none`); otherwise the content is read and run through the three
extractors (whose `ParseError` on malformed content propagates as `err`). -/
def loadFromLino (files : FileSystem) (storageDir filename : String) :
    OpResult (Option LinoRecord) :=
  let filePath := getFilePath storageDir filename
  match files filePath with
  | none => .ok none
  | some content =>
    match parse (some content), parseNumericIds (some content),
        parseStringValues (some content) with
    | some p, some n, some sv => .ok (some ⟨content, p, n, sv, filePath⟩)
    | _, _, _ => .err "ParseError"

/-- `loadJsonFromLino` (src/lino.lib.mjs:405): a missing file returns JS
`null` (`Json.null`, the same value an empty decode produces, exactly as in
JS); otherwise the content is decoded. -/
def loadJsonFromLino (files : FileSystem) (storageDir filename : String) :
    OpResult Json :=
  match files (getFilePath storageDir filename) with
  | none => .ok .null
  | some content =>
    match linoToJson (some content) with
    | some j => .ok j
    | none => .err "ParseError"

/-- `saveAsLino` (src/lino.lib.mjs:132): writes `format values` at the
file's path and returns the updated filesystem with the path. -/
def saveAsLino (files : FileSystem) (storageDir filename : String)
    (values : List Prim) : OpResult (FileSystem × String) :=
  let filePath := getFilePath storageDir filename
  .ok (fun p => if p = filePath then some (format values) else files p, filePath)

/-- `saveJsonAsLino` (src/lino.lib.mjs:393). -/
def saveJsonAsLino (files : FileSystem) (storageDir filename : String)
    (data : Json) : OpResult (FileSystem × String) :=
  let filePath := getFilePath storageDir filename
  .ok (fun p => if p = filePath then some (jsonToLino data) else files p, filePath)

/-- `requireFile` (src/lino.lib.mjs:455): loads, and on a JS-falsy result
prints `❌ <message>` (the passed message if truthy, else
`File not found: <path>`) and calls `process.exit(1)`; on success returns
the record. -/
def requireFile (files : FileSystem) (storageDir filename : String)
    (errorMessage : Option String) : OpResult LinoRecord :=
  match loadFromLino files storageDir filename with
  | .ok none =>
    let filePath := getFilePath storageDir filename
    let msg := match errorMessage with
      | some m => if m = "" then "File not found: " ++ filePath else m
      | none => "File not found: " ++ filePath
    .exit 1 ("❌ " ++ msg)
  | .ok (some data) => .ok data
  | .err e => .err e
  | .exit c m => .exit c m

/-! # Basic string infrastructure -/

@[simp] theorem strData_append (s t : String) : (s ++ t).data = s.data ++ t.data := rfl

@[simp] theorem strData_mk (l : List Char) : (⟨l⟩ : String).data = l := rfl

theorem strExt : ∀ {s t : String}, s.data = t.data → s = t
  | ⟨_⟩, ⟨_⟩, rfl => rfl

theorem strIsEmpty_false {s : String} (h : s.data ≠ []) : s.isEmpty = false := by
  have hne : ¬s.isEmpty = true := by
    intro he
    rw [String.isEmpty_iff] at he
    apply h
    rw [he]
  cases hb : s.isEmpty with
  | false => rfl
  | true => exact absurd hb hne

theorem dblList_of_not_mem {q : Char} : ∀ {l : List Char}, q ∉ l → dblList q l = l := by
  intro l
  induction l with
  | nil => intro _; rfl
  | cons c cs ih =>
    intro h
    have hc : ¬c = q := fun hcq => h (hcq ▸ List.mem_cons_self c cs)
    simp only [dblList, if_neg hc]
    rw [ih fun hm => h (List.mem_cons_of_mem c hm)]

theorem dblList_length {q : Char} : ∀ l : List Char, l.length ≤ (dblList q l).length := by
  intro l
  induction l with
  | nil => simp [dblList]
  | cons c cs ih =>
    by_cases hc : c = q <;> simp only [dblList, if_pos, if_neg, hc, List.length] <;> omega

/-! # Claim C3: characterization of escapeReference -/

/-- C3 claim-side condition: the string contains a character requiring
escaping — whitespace, a single quote, a double quote, or a parenthesis. -/
def escapeNeededSpec (s : String) : Prop :=
  ∃ c ∈ s.data, jsWhitespace c = true ∨ c = '\'' ∨ c = '"' ∨ c = '(' ∨ c = ')'

instance (s : String) : Decidable (escapeNeededSpec s) := by
  unfold escapeNeededSpec; infer_instance

/-- C3 claim-side quote choice: whichever quote character occurs less
frequently inside the string, the single quote on ties. -/
def chosenQuote (s : String) : Char :=
  if s.data.count '"' < s.data.count '\'' then '"' else '\''

/-- C3 claim-side escaped form: the string wrapped in the chosen quote
character, with every internal occurrence of that character doubled. -/
def quoteWrapSpec (q : Char) (s : String) : String :=
  ⟨[q]⟩ ++ doubleQuoteChar q s ++ ⟨[q]⟩

theorem quoteWrapSpec_ne (q : Char) (s : String) : quoteWrapSpec q s ≠ s := by
  intro h
  have hlen := congrArg (fun t : String => t.data.length) h
  simp only [quoteWrapSpec, doubleQuoteChar, strData_append, strData_mk,
    List.length_append, List.length_cons, List.length_nil] at hlen
  have := dblList_length (q := q) s.data
  omega

theorem needsEscapingB_iff (s : String) : needsEscapingB s = true ↔ escapeNeededSpec s := by
  simp only [needsEscapingB, escapeNeededSpec, List.any_eq_true, Bool.or_eq_true, beq_iff_eq]
  constructor
  · rintro ⟨c, hc, (((h | h) | h) | h) | h⟩
    · exact ⟨c, hc, Or.inl h⟩
    · exact ⟨c, hc, Or.inr (Or.inr (Or.inr (Or.inl h)))⟩
    · exact ⟨c, hc, Or.inr (Or.inr (Or.inr (Or.inr h)))⟩
    · exact ⟨c, hc, Or.inr (Or.inl h)⟩
    · exact ⟨c, hc, Or.inr (Or.inr (Or.inl h))⟩
  · rintro ⟨c, hc, h | h | h | h | h⟩
    · exact ⟨c, hc, Or.inl (Or.inl (Or.inl (Or.inl h)))⟩
    · exact ⟨c, hc, Or.inl (Or.inr h)⟩
    · exact ⟨c, hc, Or.inr h⟩
    · exact ⟨c, hc, Or.inl (Or.inl (Or.inl (Or.inr h)))⟩
    · exact ⟨c, hc, Or.inl (Or.inl (Or.inr h))⟩

theorem contains_iff_mem (l : List Char) (c : Char) : l.contains c = true ↔ c ∈ l := by
  simp [List.contains]

/-- A string needing escaping renders as the claim-side quoted form: the
less-frequent quote around the string with internal occurrences doubled. -/
theorem escapeReference_quoted (s : String) :
    escapeNeededSpec s → escapeReference (.str s) = quoteWrapSpec (chosenQuote s) s := by
  intro hesc
  have hn : needsEscapingB s = true := (needsEscapingB_iff s).mpr hesc
  by_cases h1 : '\'' ∈ s.data <;> by_cases h2 : '"' ∈ s.data
  · -- both quotes present: the branch counting occurrences
    simp only [escapeReference, jsStringOfPrim, hn, Bool.not_true, Bool.false_eq_true,
      if_false, (contains_iff_mem s.data '\'').mpr h1, (contains_iff_mem s.data '"').mpr h2,
      Bool.not_true, Bool.and_false, Bool.and_true, if_false, if_true]
    by_cases hcnt : s.data.count '"' < s.data.count '\''
    · simp only [if_pos hcnt, quoteWrapSpec, chosenQuote]
    · simp only [if_neg hcnt, quoteWrapSpec, chosenQuote]
  · -- only single quotes: wrapped in double quotes, no doubling needed
    have hq : chosenQuote s = '"' := by
      have hz : s.data.count '"' = 0 := List.count_eq_zero.mpr h2
      have hp : 0 < s.data.count '\'' := List.count_pos_iff.mpr h1
      simp [chosenQuote, hz, hp]
    simp only [escapeReference, jsStringOfPrim, hn, Bool.not_true, Bool.false_eq_true,
      if_false, (contains_iff_mem s.data '\'').mpr h1, Bool.true_and]
    rw [if_pos]
    · rw [hq]
      apply strExt
      simp [quoteWrapSpec, doubleQuoteChar, dblList_of_not_mem h2]
    · simp only [Bool.not_eq_true']
      exact Bool.not_eq_true _ ▸ fun hc => h2 ((contains_iff_mem s.data '"').mp hc)
  · -- only double quotes: wrapped in single quotes, no doubling needed
    have hq : chosenQuote s = '\'' := by
      have hz : s.data.count '\'' = 0 := List.count_eq_zero.mpr h1
      simp [chosenQuote, hz]
    have hc1 : s.data.contains '\'' = false :=
      Bool.not_eq_true _ ▸ fun hc => h1 ((contains_iff_mem s.data '\'').mp hc)
    simp only [escapeReference, jsStringOfPrim, hn, Bool.not_true, Bool.false_eq_true,
      if_false, hc1, Bool.false_and, if_false, (contains_iff_mem s.data '"').mpr h2,
      Bool.true_and, Bool.not_false, if_true]
    rw [hq]
    apply strExt
    simp [quoteWrapSpec, doubleQuoteChar, dblList_of_not_mem h1]
  · -- neither quote: the default single-quote branch
    have hq : chosenQuote s = '\'' := by
      have hz : s.data.count '\'' = 0 := List.count_eq_zero.mpr h1
      simp [chosenQuote, hz]
    have hc1 : s.data.contains '\'' = false :=
      Bool.not_eq_true _ ▸ fun hc => h1 ((contains_iff_mem s.data '\'').mp hc)
    have hc2 : s.data.contains '"' = false :=
      Bool.not_eq_true _ ▸ fun hc => h2 ((contains_iff_mem s.data '"').mp hc)
    simp only [escapeReference, jsStringOfPrim, hn, Bool.not_true, Bool.false_eq_true,
      if_false, hc1, hc2, Bool.false_and, Bool.and_false, if_false]
    rw [hq]
    apply strExt
    simp [quoteWrapSpec, doubleQuoteChar, dblList_of_not_mem h1]

/-- C3 (confirmed): `escapeReference` returns a string unchanged exactly
when it contains no whitespace, single quote, double quote or parenthesis;
otherwise it wraps the string in whichever quote character occurs less
frequently inside it (the single quote on ties), doubling every internal
occurrence of the chosen quote character; numbers and booleans always
render as their bare literal text. -/
theorem c3_escapeReference_characterization (s : String) :
    (escapeReference (.str s) = s ↔ ¬escapeNeededSpec s) ∧
    (escapeNeededSpec s → escapeReference (.str s) = quoteWrapSpec (chosenQuote s) s) ∧
    (∀ n : Int, escapeReference (.num n) = n.repr) ∧
    (∀ b : Bool, escapeReference (.bool b) = cond b "true" "false") := by
  refine ⟨⟨fun heq hesc => ?_, fun hni => ?_⟩, escapeReference_quoted s, fun _ => rfl, fun _ => rfl⟩
  · exact quoteWrapSpec_ne (chosenQuote s) s ((escapeReference_quoted s hesc) ▸ heq)
  · have hn : needsEscapingB s = false := by
      cases hb : needsEscapingB s with
      | false => rfl
      | true => exact absurd ((needsEscapingB_iff s).mp hb) hni
    simp [escapeReference, jsStringOfPrim, hn]

/-- C3 witness: concrete instances of both directions of the
characterization. -/
theorem c3_escapeReference_characterization_witness :
    escapeReference (.str "say \"hi\"") = quoteWrapSpec (chosenQuote "say \"hi\"") "say \"hi\"" ∧
    escapeReference (.str "hello") = "hello" :=
  ⟨(c3_escapeReference_characterization "say \"hi\"").2.1 (by decide),
   (c3_escapeReference_characterization "hello").1.mpr (by decide)⟩

/-! # Claim C4: the shape of `format` output -/

/-- C4 counterexample: `format` interpolates each value raw — it does
*not* apply the Reference escaping.  On the one-element list holding the
string `"a b"` the emitted line is `  a b`, not the escaped `  'a b'` the
claim requires. -/
theorem c4_counterexample :
    format [.str "a b"] = "(\n  a b\n)" ∧
    "(\n" ++ "  " ++ escapeReference (.str "a b") ++ "\n)" = "(\n  'a b'\n)" ∧
    format [.str "a b"] ≠ "(\n" ++ "  " ++ escapeReference (.str "a b") ++ "\n)" :=
  ⟨rfl, rfl, by decide⟩

/-- C4 claim-side (amended) rendering: an opening-parenthesis line, then
each value's raw `String(value)` text on its own line behind a two-space
indent, then the closing parenthesis on its own line. -/
def formatLinesSpec (values : List Prim) : String :=
  "(\n" ++ values.foldr (fun v acc => "  " ++ jsStringOfPrim v ++ "\n" ++ acc) "" ++ ")"

theorem strAppend_assoc (a b c : String) : a ++ b ++ c = a ++ (b ++ c) :=
  strExt (List.append_assoc a.data b.data c.data)

theorem strAppend_empty (a : String) : a ++ "" = a :=
  strExt (List.append_nil a.data)

theorem join_newline_foldr (t : List Prim) :
    ∀ a : String,
      t.foldl (fun acc x => acc ++ "\n" ++ ("  " ++ jsStringOfPrim x)) a ++ "\n" =
        a ++ "\n" ++ t.foldr (fun v acc => "  " ++ jsStringOfPrim v ++ "\n" ++ acc) "" := by
  induction t with
  | nil => intro a; simp [strAppend_empty]
  | cons x t ih =>
    intro a
    rw [List.foldl_cons, List.foldr_cons, ih]
    simp [strAppend_assoc]

theorem format_cons_lines (v : Prim) (t : List Prim) :
    format (v :: t) = formatLinesSpec (v :: t) := by
  show "(\n" ++ jsJoin "\n" ((v :: t).map (fun value => "  " ++ jsStringOfPrim value)) ++ "\n)" =
    formatLinesSpec (v :: t)
  have hfold : jsJoin "\n" ((v :: t).map (fun value => "  " ++ jsStringOfPrim value)) =
      (t.map (fun value => "  " ++ jsStringOfPrim value)).foldl
        (fun acc x => acc ++ "\n" ++ x) ("  " ++ jsStringOfPrim v) := by
    simp [jsJoin]
  rw [hfold, List.foldl_map]
  have hnl : ("\n)" : String) = "\n" ++ ")" := rfl
  rw [hnl, ← strAppend_assoc,
    strAppend_assoc "(\n"
      (List.foldl (fun x y => x ++ "\n" ++ ("  " ++ jsStringOfPrim y))
        ("  " ++ jsStringOfPrim v) t) "\n",
    join_newline_foldr t ("  " ++ jsStringOfPrim v)]
  simp only [formatLinesSpec, List.foldr_cons]

/-- C4 (amended): `format` yields `()` on the empty list, and on a
non-empty list an opening parenthesis, each value's raw interpolated text
(`String(value)`, *without* escaping) on its own two-space-indented line,
and a closing parenthesis on its own line. -/
theorem c4_format_lines :
    (∀ values : List Prim, values ≠ [] → format values = formatLinesSpec values) ∧
    format [] = "()" := by
  refine ⟨fun values hne => ?_, rfl⟩
  match values, hne with
  | v :: t, _ => exact format_cons_lines v t

/-- C4 witness: the amended line shape at `[1, 2, 3]` (the form the
repository's own tests pin down). -/
theorem c4_format_lines_witness : format [.num 1, .num 2, .num 3] = "(\n  1\n  2\n  3\n)" :=
  (c4_format_lines.1 [.num 1, .num 2, .num 3] (by decide)).trans (by decide)

/-! # Claim C6: the numeric filter of parseNumericIds -/

/-- C6 claim-side validity test: the text of a valid base-10 integer — an
optional sign followed by decimal digits and nothing else. -/
def isBase10IntegerText (s : String) : Bool :=
  match s.data with
  | '-' :: d => !d.isEmpty && d.all Char.isDigit
  | '+' :: d => !d.isEmpty && d.all Char.isDigit
  | d => !d.isEmpty && d.all Char.isDigit

/-- C6 claim-side integer value of a valid base-10 integer text. -/
def base10Val (s : String) : Int :=
  match s.data with
  | '-' :: d => -(digitsVal d : Int)
  | '+' :: d => (digitsVal d : Int)
  | d => (digitsVal d : Int)

/-- C6 claim-side projection: retain exactly the elements whose text is a
valid base-10 integer, converted, in order. -/
def base10Projection (elems : List String) : List Int :=
  elems.filterMap (fun t => if isBase10IntegerText t then some (base10Val t) else none)

/-- C6 counterexample: on `"(123abc 456)"` the parsed element texts are
`123abc` and `456`; only `456` is a valid base-10 integer, so the claim
predicts `[456]` — but `parseNumericIds` uses JS `parseInt`, which reads
the digit prefix of `123abc`, and returns `[123, 456]`. -/
theorem c6_counterexample :
    parseStringValues (some "(123abc 456)") = some ["123abc", "456"] ∧
    base10Projection ["123abc", "456"] = [456] ∧
    parseNumericIds (some "(123abc 456)") = some [123, 456] ∧
    parseNumericIds (some "(123abc 456)") ≠ some (base10Projection ["123abc", "456"]) :=
  ⟨rfl, by decide, rfl, by decide⟩

theorem numericFromVals_eq :
    ∀ l : LList,
      numericFromVals l = (extractVals l).filterMap (fun pv =>
        match pv with
        | ParsedVal.str s => jsParseInt s
        | ParsedVal.node _ => none)
  | .nil => rfl
  | .cons v t => by
    have ih := numericFromVals_eq t
    cases hid : v.id with
    | none => simp only [numericFromVals, extractVals, hid, List.filterMap_cons]; exact ih
    | some s =>
      by_cases hs : s = ""
      · simp only [numericFromVals, extractVals, hid, hs, if_pos rfl, List.filterMap_cons]
        exact ih
      · simp only [numericFromVals, extractVals, hid, if_neg hs, List.filterMap_cons]
        cases hpi : jsParseInt s with
        | none => simp only [hpi]; exact ih
        | some n => simp only [hpi]; exact congrArg (n :: ·) ih

/-- C6 (amended): for inputs whose parse yields a top-level link with child
values, `parseNumericIds` retains exactly those elements whose text JS
`parseInt` accepts (leading whitespace, an optional sign, then a longest
digit prefix, with `0x` hex detection), converted from that prefix, in
original order; elements `parseInt` rejects are silently dropped; in
particular `parseNumericIds("(123 abc 456)")` is `[123, 456]`. -/
theorem c6_parseNumericIds_parseInt :
    (∀ (input : String) (link : LNode) (rest : LList) (v : LNode) (t : LList)
        (vals : List ParsedVal),
      parseLino input = some (.cons link rest) → link.values = .cons v t →
      parse (some input) = some vals →
      parseNumericIds (some input) =
        some (vals.filterMap (fun pv =>
          match pv with
          | ParsedVal.str s => jsParseInt s
          | ParsedVal.node _ => none))) ∧
    parseNumericIds (some "(123 abc 456)") = some [123, 456] := by
  refine ⟨fun input link rest v t vals hp hv hvals => ?_, rfl⟩
  by_cases hin : input = ""
  · rw [hin] at hp
    rw [show parseLino "" = some LList.nil from rfl] at hp
    exact absurd hp (by intro h; injection h with h'; cases h')
  · have hparse : parse (some input) = some (extractVals (.cons v t)) := by
      simp only [parse, if_neg hin, hp, hv]
    rw [hparse] at hvals
    injection hvals with hvals
    subst hvals
    simp only [parseNumericIds, if_neg hin, hp, hv, numericFromVals_eq]

/-- C6 witness: the amended statement applied at the concrete input
`"(123 abc 456)"`. -/
theorem c6_parseNumericIds_parseInt_witness :
    parseNumericIds (some "(123 abc 456)") =
      some ([ParsedVal.str "123", ParsedVal.str "abc", ParsedVal.str "456"].filterMap
        (fun pv => match pv with
          | ParsedVal.str s => jsParseInt s
          | ParsedVal.node _ => none)) :=
  c6_parseNumericIds_parseInt.1 "(123 abc 456)"
    (.mk none (.cons (refNode "123") (.cons (refNode "abc") (.cons (refNode "456") .nil))))
    .nil (refNode "123") (.cons (refNode "abc") (.cons (refNode "456") .nil))
    [ParsedVal.str "123", ParsedVal.str "abc", ParsedVal.str "456"] rfl rfl rfl

/-! # Claim C9: digit-run mining of a bare id -/

theorem digit_toNat {c : Char} (h : c.isDigit = true) : 48 ≤ c.toNat ∧ c.toNat ≤ 57 := by
  simp only [Char.isDigit, Bool.and_eq_true, decide_eq_true_eq] at h
  exact ⟨h.1, h.2⟩

theorem digit_not_ws {c : Char} (h : c.isDigit = true) : jsWhitespace c = false := by
  have h' := digit_toNat h
  simp only [jsWhitespace, decide_eq_false_iff_not, List.mem_cons, List.not_mem_nil, not_or]
  push_neg
  simp only [not_false_iff, and_true]
  omega

theorem all_digits_reverse {l : List Char} (h : l.all Char.isDigit = true) :
    l.reverse.all Char.isDigit = true := by
  simp only [List.all_eq_true] at h ⊢
  intro c hc
  exact h c (List.mem_reverse.mp hc)

theorem digitRunsAux_mem :
    ∀ (cs cur : List Char), cur.all Char.isDigit = true →
      ∀ r ∈ digitRunsAux cur cs, r.data ≠ [] ∧ r.data.all Char.isDigit = true := by
  intro cs
  induction cs with
  | nil =>
    intro cur hcur r hr
    unfold digitRunsAux at hr
    by_cases hc : cur.isEmpty
    · simp [hc] at hr
    · rw [if_neg hc] at hr
      rcases List.mem_singleton.mp hr with rfl
      refine ⟨?_, all_digits_reverse hcur⟩
      simp only [strData_mk, ne_eq, List.reverse_eq_nil_iff]
      intro hnil
      rw [hnil] at hc
      exact hc rfl
  | cons c cs ih =>
    intro cur hcur r hr
    unfold digitRunsAux at hr
    by_cases hd : c.isDigit
    · rw [if_pos hd] at hr
      refine ih (c :: cur) ?_ r hr
      simp [hd, hcur]
    · rw [if_neg hd] at hr
      by_cases hc : cur.isEmpty
      · rw [if_pos hc] at hr
        exact ih [] rfl r hr
      · rw [if_neg hc] at hr
        rcases List.mem_cons.mp hr with rfl | hr'
        · refine ⟨?_, all_digits_reverse hcur⟩
          simp only [strData_mk, ne_eq, List.reverse_eq_nil_iff]
          intro hnil
          rw [hnil] at hc
          exact hc rfl
        · exact ih [] rfl r hr'

theorem jsParseInt_all_digits (r : String) (hne : r.data ≠ [])
    (hd : r.data.all Char.isDigit = true) :
    jsParseInt r = some (digitsVal r.data : Int) := by
  obtain ⟨c, cs, hcons⟩ := List.exists_cons_of_ne_nil hne
  have hall := hd
  rw [hcons, List.all_cons, Bool.and_eq_true] at hall
  obtain ⟨hc, hcs⟩ := hall
  have hdrop : r.data.dropWhile jsWhitespace = r.data := by
    rw [hcons, List.dropWhile_cons, digit_not_ws hc]
    simp
  have hcne : ∀ d : Char, d.isDigit = false → ¬c = d := by
    intro d hdd hcd
    rw [hcd, hdd] at hc
    cases hc
  have hhead : r.data.head? = some c := by
    rw [hcons]; rfl
  have hneg : (r.data.head? == some '-') = false := by
    rw [hhead]
    simp only [beq_eq_false_iff_ne, ne_eq, Option.some.injEq]
    exact hcne '-' (by decide)
  have hplus : (r.data.head? == some '+') = false := by
    rw [hhead]
    simp only [beq_eq_false_iff_ne, ne_eq, Option.some.injEq]
    exact hcne '+' (by decide)
  have hhex : ((r.data.head? == some '0') &&
      (r.data.tail.head? == some 'x' || r.data.tail.head? == some 'X')) = false := by
    rw [hcons]
    cases cs with
    | nil => simp
    | cons c2 cs2 =>
      have hc2 : c2.isDigit = true := by
        rw [List.all_cons, Bool.and_eq_true] at hcs
        exact hcs.1
      have hx : ¬c2 = 'x' := by
        intro h2; rw [h2] at hc2; cases hc2
      have hX : ¬c2 = 'X' := by
        intro h2; rw [h2] at hc2; cases hc2
      simp [hx, hX]
  have htake : r.data.takeWhile Char.isDigit = r.data :=
    List.takeWhile_eq_self_iff.mpr (by
      intro a ha
      exact (List.all_eq_true.mp hd) a ha)
  have hnemp : r.data.isEmpty = false := by
    rw [hcons]; rfl
  simp only [jsParseInt, hdrop, hneg, hplus, Bool.or_self, Bool.false_eq_true, if_false,
    hhex, htake, hnemp]

theorem filterMap_digitRuns (id : String) :
    (digitRuns id).filterMap jsParseInt =
      (digitRuns id).map (fun r => (digitsVal r.data : Int)) := by
  have hspec := digitRunsAux_mem id.data [] rfl
  have : ∀ r ∈ digitRuns id, jsParseInt r = some (digitsVal r.data : Int) := by
    intro r hr
    obtain ⟨h1, h2⟩ := hspec r hr
    exact jsParseInt_all_digits r h1 h2
  generalize digitRuns id = runs at this ⊢
  induction runs with
  | nil => rfl
  | cons r rs ih =>
    rw [List.filterMap_cons, List.map_cons, this r (List.mem_cons_self r rs)]
    rw [ih (fun x hx => this x (List.mem_cons_of_mem r hx))]

/-- C9 (confirmed): when the parse of the input yields a top-level link
with no child values and a present id, `parseNumericIds` returns every
maximal run of decimal digits occurring anywhere in the id's text as a
separate integer, in order. -/
theorem c9_parseNumericIds_digitRuns (input : String) (link : LNode) (rest : LList)
    (id : String) (hp : parseLino input = some (.cons link rest))
    (hv : link.values = .nil) (hid : link.id = some id) :
    parseNumericIds (some input) =
      some ((digitRuns id).map (fun r => (digitsVal r.data : Int))) := by
  by_cases hin : input = ""
  · rw [hin] at hp
    rw [show parseLino "" = some LList.nil from rfl] at hp
    exact absurd hp (by intro h; injection h with h'; cases h')
  · by_cases hide : id = ""
    · subst hide
      simp only [parseNumericIds, if_neg hin, hp, hv, hid, if_pos rfl]
      rfl
    · simp only [parseNumericIds, if_neg hin, hp, hv, hid, if_neg hide, filterMap_digitRuns]

/-- C9 witness: a single bare token holding two digit runs contributes two
integers. -/
theorem c9_parseNumericIds_digitRuns_witness :
    parseNumericIds (some "abc123def456") = some [123, 456] :=
  (c9_parseNumericIds_digitRuns "abc123def456" (refNode "abc123def456") .nil
    "abc123def456" rfl rfl rfl).trans (by decide)

/-! # Claim C10: linoToJson returns null on empty-ish inputs -/

/-- C10 (confirmed): `linoToJson` returns JS `null` — never an exception —
on a `null`/`undefined`/non-string input (the falsy/`typeof` guard,
modelled by `none`), on the empty string, and on every string whose parse
yields no top-level elements. -/
theorem c10_linoToJson_null_inputs :
    linoToJson none = some .null ∧
    linoToJson (some "") = some .null ∧
    (∀ s : String, parseLino s = some .nil → linoToJson (some s) = some .null) := by
  refine ⟨rfl, rfl, fun s hp => ?_⟩
  by_cases hs : s = ""
  · rw [hs]; rfl
  · simp only [linoToJson, if_neg hs, hp]

/-- C10 witness: a whitespace-only input parses to no top-level elements
and decodes to `null`. -/
theorem c10_linoToJson_null_inputs_witness : linoToJson (some " ") = some .null :=
  c10_linoToJson_null_inputs.2.2 " " rfl

/-! # Claim C7: loaders return an absent marker on a missing file -/

/-- C7 (confirmed): when the dataset's file does not exist, both
`loadFromLino` and `loadJsonFromLino` return JS `null` (`ok none` /
`ok null`) and never throw or exit. -/
theorem c7_loaders_absent (files : FileSystem) (storageDir filename : String)
    (h : files (getFilePath storageDir filename) = none) :
    loadFromLino files storageDir filename = .ok none ∧
    loadJsonFromLino files storageDir filename = .ok .null := by
  constructor
  · simp only [loadFromLino, h]
  · simp only [loadJsonFromLino, h]

/-- C7 witness: the empty filesystem. -/
theorem c7_loaders_absent_witness :
    loadFromLino (fun _ => none) ".follow" "vk_chats.lino" = .ok none ∧
    loadJsonFromLino (fun _ => none) ".follow" "vk_chats.lino" = .ok .null :=
  c7_loaders_absent (fun _ => none) ".follow" "vk_chats.lino" rfl

/-! # Claim C8: requireFile is the only operation that exits -/

theorem errPrefix_ne_empty (x : String) : ("❌ " ++ x) ≠ "" := by
  intro h
  have := congrArg String.data h
  simp at this

/-- C8 (confirmed): on an absent file `requireFile` emits a non-empty
user-facing message and exits the process with status 1 (non-zero); on a
present, well-formed file it returns the loaded record without exiting;
and no other file operation of the codec ever produces a process exit. -/
theorem c8_requireFile_exit :
    (∀ (files : FileSystem) (storageDir filename : String) (msg : Option String),
      files (getFilePath storageDir filename) = none →
      ∃ m : String, requireFile files storageDir filename msg = .exit 1 m ∧ m ≠ "") ∧
    (∀ (files : FileSystem) (storageDir filename : String) (msg : Option String)
        (d : LinoRecord),
      loadFromLino files storageDir filename = .ok (some d) →
      requireFile files storageDir filename msg = .ok d) ∧
    (∀ (files : FileSystem) (storageDir filename : String),
      (loadFromLino files storageDir filename).isExit = false) ∧
    (∀ (files : FileSystem) (storageDir filename : String),
      (loadJsonFromLino files storageDir filename).isExit = false) ∧
    (∀ (files : FileSystem) (storageDir filename : String) (values : List Prim),
      (saveAsLino files storageDir filename values).isExit = false) ∧
    (∀ (files : FileSystem) (storageDir filename : String) (data : Json),
      (saveJsonAsLino files storageDir filename data).isExit = false) ∧
    (∀ (files : FileSystem) (storageDir filename : String),
      (fileExists files storageDir filename).isExit = false) := by
  have habs : ∀ (files : FileSystem) (storageDir filename : String),
      files (getFilePath storageDir filename) = none →
      loadFromLino files storageDir filename = .ok none := by
    intro files storageDir filename h
    simp only [loadFromLino, h]
  refine ⟨fun files storageDir filename msg h => ?_, fun files storageDir filename msg d h => ?_,
    fun files storageDir filename => ?_, fun files storageDir filename => ?_,
    fun files storageDir filename values => rfl, fun files storageDir filename data => rfl,
    fun files storageDir filename => rfl⟩
  · have hreq : requireFile files storageDir filename msg =
        .exit 1 ("❌ " ++ (match msg with
          | some m => if m = "" then "File not found: " ++ getFilePath storageDir filename else m
          | none => "File not found: " ++ getFilePath storageDir filename)) := by
      simp only [requireFile, habs files storageDir filename h]
    exact ⟨_, hreq, errPrefix_ne_empty _⟩
  · simp only [requireFile, h]
  · cases hfc : files (getFilePath storageDir filename) with
    | none => simp only [loadFromLino, hfc]; rfl
    | some content =>
      simp only [loadFromLino, hfc]
      cases parse (some content) <;> cases parseNumericIds (some content) <;>
        cases parseStringValues (some content) <;> rfl
  · cases hfc : files (getFilePath storageDir filename) with
    | none => simp only [loadJsonFromLino, hfc]; rfl
    | some content =>
      simp only [loadJsonFromLino, hfc]
      cases linoToJson (some content) <;> rfl

/-- C8 witness: absent file exits with status 1; a present `(1 2)` file is
returned as a record. -/
theorem c8_requireFile_exit_witness :
    (∃ m : String, requireFile (fun _ => none) ".follow" "x.lino" none = .exit 1 m ∧ m ≠ "") ∧
    requireFile (fun _ => some "(1 2)") ".follow" "x.lino" none =
      .ok ⟨"(1 2)", [.str "1", .str "2"], [1, 2], ["1", "2"], ".follow/x.lino"⟩ :=
  ⟨c8_requireFile_exit.1 (fun _ => none) ".follow" "x.lino" none rfl,
   c8_requireFile_exit.2.1 (fun _ => some "(1 2)") ".follow" "x.lino" none
     ⟨"(1 2)", [.str "1", .str "2"], [1, 2], ["1", "2"], ".follow/x.lino"⟩ rfl⟩

/-! # Claim C2: the object/array classification of a decoded Link -/

/-- C2 claim-side classification condition: every element of the Link is
itself a Link of exactly two elements whose first element is a *Reference*
— a parsed record with a present id and no child values — that does not
parse as a number. -/
def claimPairs (vs : LList) : Bool :=
  vs.all fun child =>
    match child.values with
    | .cons k (.cons _ .nil) =>
      k.id.isSome &&
      (match k.values with
        | .nil => true
        | _ => false) &&
      !isNumPrim (parseReference k.id)
    | _ => false

def isObjJson (j : Json) : Bool :=
  match j with
  | .obj _ => true
  | _ => false

def isArrJson (j : Json) : Bool :=
  match j with
  | .arr _ => true
  | _ => false

/-- C2 counterexample: in `((() 1))` the outer Link's sole element is a
two-element Link whose first element is the *empty Link* `()`, not a
Reference — the claim therefore classifies the outer Link as an array —
but the code accepts it as a pair (JS `null !== undefined`, and
`String(null) = "null"` does not parse as a number), decoding to the
object with key `"null"`. -/
theorem c2_counterexample :
    parseLino "((() 1))" =
      some (.cons (.mk none (.cons (.mk none (.cons (.mk none .nil)
        (.cons (refNode "1") .nil))) .nil)) .nil) ∧
    claimPairs (.cons (.mk none (.cons (.mk none .nil) (.cons (refNode "1") .nil))) .nil)
      = false ∧
    isObjJson (convertParsedToJson (.mk none (.cons (.mk none (.cons (.mk none .nil)
      (.cons (refNode "1") .nil))) .nil))) = true ∧
    linoToJson (some "((() 1))") = some (.obj (.cons "null" (.num 1) .nil)) :=
  ⟨rfl, rfl, rfl, rfl⟩

/-- C2 claim-side (amended) classification condition: every element is a
Link of exactly two elements whose first element carries *no child values*
— a Reference or the empty Link, whose absent id reads as the text `null`
— and whose id does not parse as a number. -/
def amendedPairs (vs : LList) : Bool :=
  vs.all fun child =>
    match child.values with
    | .cons k (.cons _ .nil) =>
      (match k.values with
        | .nil => true
        | _ => false) &&
      !isNumPrim (parseReference k.id)
    | _ => false

theorem allPairsB_eq_amended (vs : LList) : allPairsB vs = amendedPairs vs := rfl

/-- C2 (amended): a decoded Link with elements is classified as a JSON
object if and only if every element is a Link of exactly two elements
whose first element carries no child values (a Reference, or the empty
Link — whose absent id reads as the text `null`) and whose id text does
not parse as a number; otherwise it decodes as an array; and the empty
Link always decodes to the empty array, never to an object. -/
theorem c2_classification :
    (∀ (id : Option String) (v : LNode) (t : LList),
      (isObjJson (convertParsedToJson (.mk id (.cons v t))) = true ↔
        amendedPairs (.cons v t) = true) ∧
      (amendedPairs (.cons v t) = false →
        isArrJson (convertParsedToJson (.mk id (.cons v t))) = true)) ∧
    convertParsedToJson (.mk none .nil) = .arr .nil ∧
    (∀ kvs : JEntries, convertParsedToJson (.mk none .nil) ≠ .obj kvs) := by
  refine ⟨fun id v t => ?_, rfl, fun kvs h => ?_⟩
  · have hconv : convertParsedToJson (.mk id (.cons v t)) =
        if allPairsB (.cons v t) then .obj (jsObjFromPairs (rawEntries (.cons v t)))
        else .arr (convertAll (.cons v t)) := by
      cases id <;> rfl
    cases hap : allPairsB (.cons v t) with
    | true =>
      constructor
      · constructor
        · intro _; rw [← allPairsB_eq_amended]; exact hap
        · intro _
          rw [hconv, if_pos hap]
          rfl
      · intro hfalse
        rw [← allPairsB_eq_amended, hap] at hfalse
        cases hfalse
    | false =>
      constructor
      · constructor
        · intro hobj
          rw [hconv, if_neg (by rw [hap]; exact Bool.false_ne_true)] at hobj
          cases hobj
        · intro htrue
          rw [← allPairsB_eq_amended, hap] at htrue
          cases htrue
      · intro _
        rw [hconv, if_neg (by rw [hap]; exact Bool.false_ne_true)]
        rfl
  · cases h

/-- C2 witness: a Link holding one name/value pair classifies as an object;
a Link whose sole element is the empty Link classifies as an array. -/
theorem c2_classification_witness :
    isObjJson (convertParsedToJson (.mk none
      (.cons (.mk none (.cons (refNode "name") (.cons (refNode "John") .nil))) .nil))) = true ∧
    isArrJson (convertParsedToJson (.mk none (.cons (.mk none .nil) .nil))) = true :=
  ⟨(c2_classification.1 none (.mk none (.cons (refNode "name") (.cons (refNode "John") .nil)))
      .nil).1.mpr rfl,
   (c2_classification.1 none (.mk none .nil) .nil).2 rfl⟩

/-! # Tokenizer round-trip infrastructure

These lemmas show that the modelled tokenizer reads back the token a
printer emits, a token at a time: a non-empty run of bare characters
followed by a delimiter yields exactly one token, and a quoted run (with
the quote character doubled inside) likewise. -/

/-- A list of characters that can safely follow a completed bare token:
empty, or starting with a non-bare character. -/
def delimHead : List Char → Prop
  | [] => True
  | c :: _ => bareChar c = false

/-- A list of characters that can safely follow a completed quoted token
closed with quote `q`: empty, or starting with a character other than `q`. -/
def headNotQuote (q : Char) : List Char → Prop
  | [] => True
  | c :: _ => ¬c = q

theorem bareChar_spec {c : Char} (h : bareChar c = true) :
    jsWhitespace c = false ∧ ¬c = '(' ∧ ¬c = ')' ∧ isQuoteChar c = false := by
  simp only [bareChar, Bool.and_eq_true, Bool.not_eq_true', bne_iff_ne, ne_eq] at h
  exact ⟨h.1.1.1, h.1.1.2, h.1.2, h.2⟩

theorem bareChar_false_cases {c : Char} (h : bareChar c = false) :
    jsWhitespace c = true ∨ c = '(' ∨ c = ')' ∨ isQuoteChar c = true := by
  simp only [bareChar, Bool.and_eq_false_iff, bne_eq_false_iff_eq] at h
  rcases h with ((hw | hl) | hr) | hq
  · exact Or.inl (by simpa using hw)
  · exact Or.inr (Or.inl hl)
  · exact Or.inr (Or.inr (Or.inl hr))
  · exact Or.inr (Or.inr (Or.inr (by simpa using hq)))

theorem tokRun_base_ws {c : Char} (h : jsWhitespace c = true) (cs : List Char) :
    tokRun .base (c :: cs) = tokRun .base cs := by
  simp [tokRun, h]

theorem tokRun_base_lp {c : Char} (h : c = '(') (cs : List Char) :
    tokRun .base (c :: cs) = (tokRun .base cs).map (.lp :: ·) := by
  subst h; rfl

theorem tokRun_base_rp {c : Char} (h : c = ')') (cs : List Char) :
    tokRun .base (c :: cs) = (tokRun .base cs).map (.rp :: ·) := by
  subst h; rfl

theorem isQuoteChar_cases {c : Char} (h : isQuoteChar c = true) : c = '\'' ∨ c = '"' := by
  simp only [isQuoteChar, Bool.or_eq_true, beq_iff_eq] at h
  exact h

theorem tokRun_base_quote {c : Char} (h : isQuoteChar c = true) (cs : List Char) :
    tokRun .base (c :: cs) = tokRun (.quoted c []) cs := by
  rcases isQuoteChar_cases h with rfl | rfl <;> rfl

theorem tokRun_base_bare {c : Char} (h : bareChar c = true) (cs : List Char) :
    tokRun .base (c :: cs) = tokRun (.bare [c]) cs := by
  obtain ⟨hw, hl, hr, hq⟩ := bareChar_spec h
  simp [tokRun, hw, hl, hr, hq]

/-- From the `bare` state, a delimiter-headed remainder flushes the
accumulated token and continues in the base state. -/
theorem tokRun_bare_exit (acc : List Char) (rest : List Char) (h : delimHead rest) :
    tokRun (.bare acc) rest = (tokRun .base rest).map (.tok ⟨acc.reverse⟩ :: ·) := by
  cases rest with
  | nil => rfl
  | cons c cs =>
    rcases bareChar_false_cases h with hw | hl | hr | hq
    · rw [tokRun_base_ws hw]
      simp [tokRun, hw]
    · subst hl
      rw [tokRun_base_lp rfl]
      show (tokRun .base cs).map (fun ts => .tok ⟨acc.reverse⟩ :: .lp :: ts) = _
      cases tokRun .base cs <;> rfl
    · subst hr
      rw [tokRun_base_rp rfl]
      show (tokRun .base cs).map (fun ts => .tok ⟨acc.reverse⟩ :: .rp :: ts) = _
      cases tokRun .base cs <;> rfl
    · rw [tokRun_base_quote hq]
      obtain ⟨hw, hl, hr, _⟩ : jsWhitespace c = false ∧ ¬c = '(' ∧ ¬c = ')' ∧ True := by
        rcases isQuoteChar_cases hq with rfl | rfl <;> exact ⟨rfl, by decide, by decide, trivial⟩
      simp [tokRun, hw, hl, hr, hq]

/-- From the `bare` state, consuming a run of bare characters accumulates
them; a delimiter then emits the token. -/
theorem tokRun_bare_run :
    ∀ (u : List Char), (∀ c ∈ u, bareChar c = true) →
      ∀ (acc rest : List Char), delimHead rest →
        tokRun (.bare acc) (u ++ rest) =
          (tokRun .base rest).map (.tok ⟨acc.reverse ++ u⟩ :: ·) := by
  intro u
  induction u with
  | nil =>
    intro _ acc rest hrest
    rw [List.nil_append, tokRun_bare_exit acc rest hrest, List.append_nil]
  | cons b u ih =>
    intro hu acc rest hrest
    have hb : bareChar b = true := hu b (List.mem_cons_self b u)
    obtain ⟨hw, hl, hr, hq⟩ := bareChar_spec hb
    have hstep : tokRun (.bare acc) (b :: (u ++ rest)) = tokRun (.bare (b :: acc)) (u ++ rest) := by
      simp [tokRun, hw, hl, hr, hq]
    rw [List.cons_append, hstep, ih (fun c hc => hu c (List.mem_cons_of_mem b hc)) (b :: acc) rest hrest]
    have : (b :: acc).reverse ++ u = acc.reverse ++ (b :: u) := by
      simp
    rw [this]

/-- A non-empty bare token followed by a delimiter tokenizes to exactly
that token. -/
theorem tokRun_base_bare_token (t : List Char) (hne : t ≠ [])
    (hall : ∀ c ∈ t, bareChar c = true) (rest : List Char) (hd : delimHead rest) :
    tokRun .base (t ++ rest) = (tokRun .base rest).map (.tok ⟨t⟩ :: ·) := by
  obtain ⟨b, u, rfl⟩ := List.exists_cons_of_ne_nil hne
  rw [List.cons_append, tokRun_base_bare (hall b (List.mem_cons_self b u))]
  rw [tokRun_bare_run u (fun c hc => hall c (List.mem_cons_of_mem b hc)) [b] rest hd]
  rfl

/-- From the `quoteSeen` state, a remainder not starting with the same
quote character flushes the token and continues in the base state. -/
theorem tokRun_quoteSeen_exit (q : Char) (acc : List Char) (rest : List Char)
    (h : headNotQuote q rest) :
    tokRun (.quoteSeen q acc) rest = (tokRun .base rest).map (.tok ⟨acc.reverse⟩ :: ·) := by
  cases rest with
  | nil => rfl
  | cons c cs =>
    have hcq : ¬c = q := h
    by_cases hb : bareChar c = true
    · obtain ⟨hw, hl, hr, hq⟩ := bareChar_spec hb
      rw [tokRun_base_bare hb]
      simp [tokRun, hcq, hw, hl, hr, hq]
    · rcases bareChar_false_cases (Bool.not_eq_true _ ▸ hb : bareChar c = false)
        with hw | hl | hr | hq
      · rw [tokRun_base_ws hw]
        simp [tokRun, hcq, hw]
      · subst hl
        rw [tokRun_base_lp rfl]
        have hw : jsWhitespace '(' = false := rfl
        simp only [tokRun, if_neg hcq, hw, Bool.false_eq_true, if_false, if_pos rfl]
        cases tokRun .base cs <;> rfl
      · subst hr
        rw [tokRun_base_rp rfl]
        have hw : jsWhitespace ')' = false := rfl
        have hl : ¬(')' : Char) = '(' := by decide
        simp only [tokRun, if_neg hcq, hw, Bool.false_eq_true, if_false, if_neg hl, if_pos rfl]
        cases tokRun .base cs <;> rfl
      · rw [tokRun_base_quote hq]
        obtain ⟨hw, hl, hr⟩ : jsWhitespace c = false ∧ ¬c = '(' ∧ ¬c = ')' := by
          rcases isQuoteChar_cases hq with rfl | rfl <;> exact ⟨rfl, by decide, by decide⟩
        simp [tokRun, hcq, hw, hl, hr, hq]

/-- Inside a quoted token, consuming the doubled form of the content and
then the closing quote emits the token (provided the remainder does not
start with the same quote character, which would instead read as an
escaped quote). -/
theorem tokRun_quoted_run (q : Char) :
    ∀ (s acc rest : List Char), headNotQuote q rest →
      tokRun (.quoted q acc) (dblList q s ++ q :: rest) =
        (tokRun .base rest).map (.tok ⟨acc.reverse ++ s⟩ :: ·) := by
  intro s
  induction s with
  | nil =>
    intro acc rest hrest
    rw [show dblList q [] = ([] : List Char) from rfl, List.nil_append]
    have hstep : tokRun (.quoted q acc) (q :: rest) = tokRun (.quoteSeen q acc) rest := by
      simp [tokRun]
    rw [hstep, tokRun_quoteSeen_exit q acc rest hrest, List.append_nil]
  | cons c s ih =>
    intro acc rest hrest
    by_cases hc : c = q
    · subst hc
      have hd : dblList c (c :: s) = c :: c :: dblList c s := by
        simp [dblList]
      rw [hd]
      have h0 : (c :: c :: dblList c s) ++ c :: rest = c :: (c :: (dblList c s ++ c :: rest)) := by
        simp
      rw [h0]
      have h1 : tokRun (.quoted c acc) (c :: (c :: (dblList c s ++ c :: rest))) =
          tokRun (.quoteSeen c acc) (c :: (dblList c s ++ c :: rest)) := by
        simp [tokRun]
      have h2 : tokRun (.quoteSeen c acc) (c :: (dblList c s ++ c :: rest)) =
          tokRun (.quoted c (c :: acc)) (dblList c s ++ c :: rest) := by
        simp [tokRun]
      rw [h1, h2, ih (c :: acc) rest hrest]
      have h3 : (c :: acc).reverse ++ s = acc.reverse ++ (c :: s) := by simp
      rw [h3]
    · have hd : dblList q (c :: s) = c :: dblList q s := by
        simp [dblList, hc]
      rw [hd]
      have h0 : (c :: dblList q s) ++ q :: rest = c :: (dblList q s ++ q :: rest) := by simp
      rw [h0]
      have h1 : tokRun (.quoted q acc) (c :: (dblList q s ++ q :: rest)) =
          tokRun (.quoted q (c :: acc)) (dblList q s ++ q :: rest) := by
        simp [tokRun, hc]
      rw [h1, ih (c :: acc) rest hrest]
      have h3 : (c :: acc).reverse ++ s = acc.reverse ++ (c :: s) := by simp
      rw [h3]

/-- A quoted token (opening quote, doubled content, closing quote)
followed by a remainder not starting with the quote character tokenizes to
exactly that token. -/
theorem tokRun_base_quoted_token (q : Char) (hq : isQuoteChar q = true) (s : List Char)
    (rest : List Char) (hrest : headNotQuote q rest) :
    tokRun .base ((q :: dblList q s ++ [q]) ++ rest) =
      (tokRun .base rest).map (.tok ⟨s⟩ :: ·) := by
  have hassoc : (q :: dblList q s ++ [q]) ++ rest = q :: (dblList q s ++ q :: rest) := by
    simp
  rw [hassoc, tokRun_base_quote hq, tokRun_quoted_run q s [] rest hrest]
  rfl

/-! # Tokenizing an escaped reference -/

theorem not_needsEscaping_bare {s : String} (h : needsEscapingB s = false) :
    ∀ c ∈ s.data, bareChar c = true := by
  intro c hc
  simp only [needsEscapingB] at h
  have hp := List.any_eq_false.mp h c hc
  have h5 : jsWhitespace c = false ∧ (c == '(') = false ∧ (c == ')') = false ∧
      (c == '\'') = false ∧ (c == '"') = false := by
    cases hjw : jsWhitespace c <;> cases hc1 : c == '(' <;> cases hc2 : c == ')' <;>
      cases hc3 : c == '\'' <;> cases hc4 : c == '"' <;> simp_all
  obtain ⟨hw, hc1, hc2, hc3, hc4⟩ := h5
  simp only [bareChar, isQuoteChar, hw, hc1, hc2, hc3, hc4, Bool.not_false, Bool.or_self,
    Bool.and_true, Bool.true_and, bne]

theorem escapeReference_bare {s : String} (h : needsEscapingB s = false) :
    escapeReference (.str s) = s := by
  simp [escapeReference, jsStringOfPrim, h]

theorem chosenQuote_isQuote (s : String) : isQuoteChar (chosenQuote s) = true := by
  unfold chosenQuote
  split <;> rfl

/-- A safe separator after any emitted token in the printers below:
nothing, a space, or a closing parenthesis. -/
def sepHead (rest : List Char) : Prop :=
  rest = [] ∨ (∃ cs, rest = ' ' :: cs) ∨ (∃ cs, rest = ')' :: cs)

theorem sepHead_delimHead {rest : List Char} (h : sepHead rest) : delimHead rest := by
  rcases h with rfl | ⟨cs, rfl⟩ | ⟨cs, rfl⟩
  · trivial
  · show bareChar ' ' = false
    rfl
  · show bareChar ')' = false
    rfl

theorem sepHead_headNotQuote {q : Char} (hq : isQuoteChar q = true) {rest : List Char}
    (h : sepHead rest) : headNotQuote q rest := by
  rcases h with rfl | ⟨cs, rfl⟩ | ⟨cs, rfl⟩
  · trivial
  · show ¬(' ' = q)
    rcases isQuoteChar_cases hq with rfl | rfl <;> decide
  · show ¬(')' = q)
    rcases isQuoteChar_cases hq with rfl | rfl <;> decide

/-- The escaped form of a non-empty string, followed by a separator,
tokenizes to exactly the original string. -/
theorem tokRun_escape_token (s : String) (hne : s.data ≠ []) (rest : List Char)
    (hsep : sepHead rest) :
    tokRun .base ((escapeReference (.str s)).data ++ rest) =
      (tokRun .base rest).map (.tok s :: ·) := by
  cases h : needsEscapingB s with
  | true =>
    rw [escapeReference_quoted s ((needsEscapingB_iff s).mp h)]
    have hq := chosenQuote_isQuote s
    have hdata : (quoteWrapSpec (chosenQuote s) s).data =
        (chosenQuote s) :: dblList (chosenQuote s) s.data ++ [chosenQuote s] := by
      simp [quoteWrapSpec, doubleQuoteChar]
    rw [hdata, tokRun_base_quoted_token _ hq s.data rest (sepHead_headNotQuote hq hsep)]
  | false =>
    rw [escapeReference_bare h]
    exact tokRun_base_bare_token s.data hne (not_needsEscaping_bare h) rest
      (sepHead_delimHead hsep)

/-! # Canonical parsed trees and their token lists -/

mutual
/-- The parsed records `parseMany` produces: a Reference (a present id, no
values) or a Link (no id, canonical values). -/
def canonNode : LNode → Prop
  | .mk (some _) .nil => True
  | .mk (some _) (.cons _ _) => False
  | .mk none vs => canonList vs
def canonList : LList → Prop
  | .nil => True
  | .cons h t => canonNode h ∧ canonList t
end

mutual
/-- The token list a canonical parsed record prints to (and parses from). -/
def nodeToks : LNode → List Tok
  | .mk (some s) .nil => [.tok s]
  | .mk (some _) (.cons _ _) => []
  | .mk none vs => .lp :: listToks vs ++ [.rp]
def listToks : LList → List Tok
  | .nil => []
  | .cons h t => nodeToks h ++ listToks t
end

theorem parseMany_toks :
    ∀ (n : Nat) (l : LList), canonList l → (listToks l).length < n →
      ∀ rest : List Tok, (rest = [] ∨ ∃ ts, rest = Tok.rp :: ts) →
        parseMany n (listToks l ++ rest) = some (l, rest) := by
  intro n
  induction n with
  | zero => intro l _ h; exact absurd h (Nat.not_lt_zero _)
  | succ n ih =>
    intro l hc hlen rest hrest
    cases l with
    | nil =>
      rcases hrest with rfl | ⟨ts, rfl⟩ <;> rfl
    | cons h t =>
      obtain ⟨hch, hct⟩ := hc
      cases h with
      | mk id vs =>
        cases id with
        | some s =>
          cases vs with
          | nil =>
            have hlt : (listToks t).length < n := by
              have : (listToks (.cons (.mk (some s) .nil) t)).length =
                  (listToks t).length + 1 := by
                simp [listToks, nodeToks]
              omega
            have hshape : listToks (.cons (.mk (some s) .nil) t) ++ rest =
                Tok.tok s :: (listToks t ++ rest) := by
              simp [listToks, nodeToks]
            rw [hshape]
            show (parseMany n (listToks t ++ rest)).map
              (fun r => (LList.cons (refNode s) r.1, r.2)) =
                some (LList.cons (LNode.mk (some s) LList.nil) t, rest)
            rw [ih t hct hlt rest hrest]
            rfl
          | cons v vs' => exact hch.elim
        | none =>
          have hlen1 : (listToks (.cons (.mk none vs) t)).length =
              (listToks vs).length + (listToks t).length + 2 := by
            simp [listToks, nodeToks]
            omega
          have hshape : listToks (.cons (.mk none vs) t) ++ rest =
              Tok.lp :: (listToks vs ++ (Tok.rp :: (listToks t ++ rest))) := by
            simp [listToks, nodeToks]
          rw [hshape]
          have hinner : parseMany n (listToks vs ++ (Tok.rp :: (listToks t ++ rest))) =
              some (vs, Tok.rp :: (listToks t ++ rest)) :=
            ih vs hch (by omega) (Tok.rp :: (listToks t ++ rest)) (Or.inr ⟨_, rfl⟩)
          have houter : parseMany n (listToks t ++ rest) = some (t, rest) :=
            ih t hct (by omega) rest hrest
          show (match parseMany n (listToks vs ++ (Tok.rp :: (listToks t ++ rest))) with
            | some (ns, Tok.rp :: r) =>
              (parseMany n r).map (fun r' => (LList.cons (LNode.mk none ns) r'.1, r'.2))
            | _ => none) = some (LList.cons (LNode.mk none vs) t, rest)
          rw [hinner]
          show (parseMany n (listToks t ++ rest)).map
            (fun r' => (LList.cons (LNode.mk none vs) r'.1, r'.2)) =
              some (LList.cons (LNode.mk none vs) t, rest)
          rw [houter]
          rfl

/-- A string that tokenizes to the token list of a canonical top-level
sequence parses to that sequence. -/
theorem parseLino_of_toks (s : String) (l : LList) (hc : canonList l)
    (ht : tokenize s = some (listToks l)) : parseLino s = some l := by
  simp only [parseLino, ht]
  have h := parseMany_toks ((listToks l).length + 1) l hc (Nat.lt_succ_self _) [] (Or.inl rfl)
  rw [List.append_nil] at h
  rw [h]

/-! # Decimal rendering of integers

`String(n)` on a JS integer is modelled by `Int.repr`; these lemmas show
the rendering consists of a sign and decimal digits and that reading those
digits back yields the original number. -/

theorem toDigitsCore_acc (b : Nat) :
    ∀ (fuel n : Nat) (acc : List Char),
      Nat.toDigitsCore b fuel n acc = Nat.toDigitsCore b fuel n [] ++ acc := by
  intro fuel
  induction fuel with
  | zero => intro n acc; rfl
  | succ fuel ih =>
    intro n acc
    simp only [Nat.toDigitsCore]
    by_cases h : n / b = 0
    · simp [h]
    · rw [if_neg h, if_neg h, ih (n / b) (Nat.digitChar (n % b) :: acc),
        ih (n / b) [Nat.digitChar (n % b)]]
      simp

theorem digitChar_isDigit {d : Nat} (h : d < 10) : (Nat.digitChar d).isDigit = true := by
  interval_cases d <;> decide

theorem digitChar_toNat {d : Nat} (h : d < 10) : (Nat.digitChar d).toNat = 48 + d := by
  interval_cases d <;> decide

theorem toDigits10_all_digits :
    ∀ (fuel n : Nat), ∀ c ∈ Nat.toDigitsCore 10 fuel n [], c.isDigit = true := by
  intro fuel
  induction fuel with
  | zero => intro n c hc; cases hc
  | succ fuel ih =>
    intro n c hc
    simp only [Nat.toDigitsCore] at hc
    by_cases h : n / 10 = 0
    · rw [if_pos h] at hc
      rcases List.mem_singleton.mp hc with rfl
      exact digitChar_isDigit (Nat.mod_lt n (by norm_num))
    · rw [if_neg h, toDigitsCore_acc] at hc
      rcases List.mem_append.mp hc with h1 | h2
      · exact ih (n / 10) c h1
      · rcases List.mem_singleton.mp h2 with rfl
        exact digitChar_isDigit (Nat.mod_lt n (by norm_num))

theorem digitsVal_append_one (l : List Char) (c : Char) :
    digitsVal (l ++ [c]) = 10 * digitsVal l + (c.toNat - 48) := by
  simp [digitsVal, List.foldl_append]

theorem toDigits10_val :
    ∀ (fuel n : Nat), n < 10 ^ fuel → digitsVal (Nat.toDigitsCore 10 fuel n []) = n := by
  intro fuel
  induction fuel with
  | zero =>
    intro n h
    interval_cases n
    rfl
  | succ fuel ih =>
    intro n h
    simp only [Nat.toDigitsCore]
    by_cases hdiv : n / 10 = 0
    · rw [if_pos hdiv]
      have hn : n < 10 := by omega
      have h1 : digitsVal [Nat.digitChar (n % 10)] = (Nat.digitChar (n % 10)).toNat - 48 := by
        simp [digitsVal]
      rw [h1, digitChar_toNat (Nat.mod_lt n (by norm_num))]
      omega
    · have hlt : n / 10 < 10 ^ fuel := by
        rw [Nat.div_lt_iff_lt_mul (by norm_num : (0 : Nat) < 10)]
        calc n < 10 ^ (fuel + 1) := h
          _ = 10 ^ fuel * 10 := by ring
      rw [if_neg hdiv, toDigitsCore_acc, digitsVal_append_one, ih (n / 10) hlt,
        digitChar_toNat (Nat.mod_lt n (by norm_num))]
      omega

theorem toDigits10_ne_nil (n : Nat) : Nat.toDigits 10 n ≠ [] := by
  unfold Nat.toDigits
  simp only [Nat.toDigitsCore]
  by_cases h : n / 10 = 0
  · simp [h]
  · rw [if_neg h, toDigitsCore_acc]
    simp

theorem natRepr_data (n : Nat) : (Nat.repr n).data = Nat.toDigits 10 n := rfl

theorem natRepr_ne_nil (n : Nat) : (Nat.repr n).data ≠ [] := toDigits10_ne_nil n

theorem natRepr_all_digits (n : Nat) : ∀ c ∈ (Nat.repr n).data, c.isDigit = true :=
  toDigits10_all_digits (n + 1) n

theorem natRepr_val (n : Nat) : digitsVal (Nat.repr n).data = n := by
  rw [natRepr_data]
  refine toDigits10_val (n + 1) n ?_
  calc n < 10 ^ n := Nat.lt_pow_self (by norm_num) n
    _ ≤ 10 ^ (n + 1) := Nat.pow_le_pow_right (by norm_num) (Nat.le_succ n)

theorem intRepr_ofNat (m : Nat) : Int.repr (Int.ofNat m) = Nat.repr m := rfl

theorem intRepr_negSucc (m : Nat) : Int.repr (Int.negSucc m) = "-" ++ Nat.repr (m + 1) := rfl

theorem digit_bareChar {c : Char} (h : c.isDigit = true) : bareChar c = true := by
  have hb := digit_toNat h
  have hne : ∀ d : Char, (48 ≤ d.toNat → 57 < d.toNat) → (c == d) = false := by
    intro d hd
    rw [beq_eq_false_iff_ne]
    intro hcd
    rw [hcd] at hb
    omega
  simp only [bareChar, isQuoteChar, digit_not_ws h, Bool.not_false, Bool.true_and, bne,
    hne '(' (by decide), hne ')' (by decide), hne '\'' (by decide), hne '"' (by decide),
    Bool.not_false, Bool.or_self, Bool.and_self]

theorem minus_bareChar : bareChar '-' = true := by decide

theorem intRepr_ne_nil (n : Int) : (Int.repr n).data ≠ [] := by
  cases n with
  | ofNat m => exact natRepr_ne_nil m
  | negSucc m =>
    rw [intRepr_negSucc]
    simp

theorem intRepr_bare (n : Int) : ∀ c ∈ (Int.repr n).data, bareChar c = true := by
  cases n with
  | ofNat m => exact fun c hc => digit_bareChar (natRepr_all_digits m c hc)
  | negSucc m =>
    intro c hc
    rw [intRepr_negSucc] at hc
    simp only [strData_append] at hc
    rcases List.mem_append.mp hc with h1 | h2
    · rcases List.mem_singleton.mp h1 with rfl
      exact minus_bareChar
    · exact digit_bareChar (natRepr_all_digits (m + 1) c h2)

/-! # Parsing a rendered integer back -/

theorem digit_beq_false {c d : Char} (hc : c.isDigit = true)
    (hd : 48 ≤ d.toNat → 57 < d.toNat) : (c == d) = false := by
  have hb := digit_toNat hc
  rw [beq_eq_false_iff_ne]
  intro hcd
  rw [hcd] at hb
  omega

theorem dropWhile_eq_self_of_all {p : Char → Bool} {l : List Char}
    (h : ∀ c ∈ l, p c = false) : l.dropWhile p = l := by
  cases l with
  | nil => rfl
  | cons c cs =>
    rw [List.dropWhile_cons, h c (List.mem_cons_self c cs)]
    simp

theorem jsTrim_id {s : String} (h : ∀ c ∈ s.data, jsWhitespace c = false) : jsTrim s = s := by
  apply strExt
  simp only [jsTrim, strData_mk]
  rw [dropWhile_eq_self_of_all h,
    dropWhile_eq_self_of_all (fun c hc => h c (List.mem_reverse.mp hc)),
    List.reverse_reverse]

theorem head_beq_false {t : List Char} {c d : Char} (ht : t.head? = some c)
    (hcd : (c == d) = false) : (t.head? == some d) = false := by
  rw [ht]
  rw [beq_eq_false_iff_ne] at hcd ⊢
  intro h
  exact hcd (Option.some.injEq c d ▸ h)

theorem radix_false_of_digit_second {t : List Char}
    (h : ∀ x r, t.tail = x :: r → x.isDigit = true) : jsRadixShape t = false := by
  match t with
  | [] => rfl
  | [c] => rfl
  | c0 :: x :: r =>
    have hx : x.isDigit = true := h x r rfl
    simp only [jsRadixShape, digit_beq_false hx (d := 'x') (by decide),
      digit_beq_false hx (d := 'X') (by decide), digit_beq_false hx (d := 'o') (by decide),
      digit_beq_false hx (d := 'O') (by decide), digit_beq_false hx (d := 'b') (by decide),
      digit_beq_false hx (d := 'B') (by decide), Bool.or_self, Bool.false_eq_true, if_false]
    cases c0 == '0' <;> simp

theorem decimal_true_of_digits {t : List Char} (hne : t ≠ [])
    (h : t.all Char.isDigit = true) : jsDecimalShape t = true := by
  obtain ⟨c, cs, rfl⟩ := List.exists_cons_of_ne_nil hne
  have hc : c.isDigit = true := List.all_eq_true.mp h c (List.mem_cons_self c cs)
  have hdot : ((c :: cs).head? == some '.') = false :=
    head_beq_false rfl (digit_beq_false hc (by decide))
  have htake : (c :: cs).takeWhile Char.isDigit = c :: cs :=
    List.takeWhile_eq_self_iff.mpr (List.all_eq_true.mp h)
  simp only [jsDecimalShape, hdot, Bool.false_eq_true, if_false, htake]
  have hdrop : (c :: cs).drop (c :: cs).length = [] := List.drop_length _
  rw [hdrop]
  rfl

theorem parseRef_digits (s : String) (hne : s.data ≠ [])
    (hd : s.data.all Char.isDigit = true) :
    parseRefS s = .num (digitsVal s.data) := by
  obtain ⟨c, cs, hcons⟩ := List.exists_cons_of_ne_nil hne
  have hc : c.isDigit = true := by
    have := List.all_eq_true.mp hd c (by rw [hcons]; exact List.mem_cons_self c cs)
    exact this
  have hlit : ∀ w : String, w.data.head? = some 'n' ∨ w.data.head? = some 't' ∨
      w.data.head? = some 'f' → ¬s = w := by
    intro w hw hsw
    have : s.data.head? = w.data.head? := by rw [hsw]
    rw [hcons] at this
    have hb := digit_toNat hc
    rcases hw with hw | hw | hw <;> rw [hw] at this <;>
      simp only [List.head?_cons, Option.some.injEq] at this <;> rw [this] at hb <;> simp at hb
  have htrim : jsTrim s = s :=
    jsTrim_id (fun cc hcc => digit_not_ws (List.all_eq_true.mp hd cc hcc))
  have hradix : jsRadixShape s.data = false := by
    refine radix_false_of_digit_second fun x r hxr => ?_
    refine List.all_eq_true.mp hd x ?_
    rw [hcons] at hxr ⊢
    simp only [List.tail_cons] at hxr
    exact List.mem_cons_of_mem c (hxr ▸ List.mem_cons_self x r)
  have hplus : (s.data.head? == some '+') = false := by
    rw [hcons]
    exact head_beq_false rfl (digit_beq_false hc (by decide))
  have hminus : (s.data.head? == some '-') = false := by
    rw [hcons]
    exact head_beq_false rfl (digit_beq_false hc (by decide))
  have hnotinf : ¬s.data = ['I', 'n', 'f', 'i', 'n', 'i', 't', 'y'] := by
    intro h
    rw [hcons] at h
    injection h with h1 _
    rw [h1] at hc
    cases hc
  have hempty : s.data.isEmpty = false := by
    rw [hcons]; rfl
  have hshape : jsNumericShape s = true := by
    simp only [jsNumericShape, htrim, hempty, Bool.false_eq_true, if_false, hradix, hplus,
      hminus, Bool.or_self, if_neg hnotinf]
    exact decimal_true_of_digits hne hd
  have hval : jsNumberVal s = (digitsVal s.data : Int) := by
    simp only [jsNumberVal, htrim, hradix, Bool.false_eq_true, if_false, hplus, hminus,
      Bool.or_self]
    rw [hempty, hd]
    rfl
  have htrue : ¬s = "true" := hlit "true" (Or.inr (Or.inl rfl))
  have hfalse : ¬s = "false" := hlit "false" (Or.inr (Or.inr rfl))
  have hnull : ¬s = "null" := hlit "null" (Or.inl rfl)
  simp only [parseRefS, parseReference, if_neg htrue, if_neg hfalse, if_neg hnull, hshape,
    htrim, strIsEmpty_false hne, Bool.not_false, Bool.and_self, Bool.true_and, if_pos rfl,
    hval, if_true]

theorem parseRefS_intRepr (n : Int) : parseRefS (Int.repr n) = .num n := by
  cases n with
  | ofNat m =>
    rw [intRepr_ofNat, parseRef_digits (Nat.repr m) (natRepr_ne_nil m)
      (List.all_eq_true.mpr (natRepr_all_digits m)), natRepr_val]
    rfl
  | negSucc m =>
    have hdata : (Int.repr (Int.negSucc m)).data = '-' :: (Nat.repr (m + 1)).data := by
      rw [intRepr_negSucc]
      rfl
    obtain ⟨c, cs, hcons⟩ := List.exists_cons_of_ne_nil (natRepr_ne_nil (m + 1))
    have hc : c.isDigit = true := natRepr_all_digits (m + 1) c (by rw [hcons]; exact List.mem_cons_self c cs)
    set s := Int.repr (Int.negSucc m) with hs
    have hlit : ∀ w : String, w.data.head? = some 'n' ∨ w.data.head? = some 't' ∨
        w.data.head? = some 'f' → ¬s = w := by
      intro w hw hsw
      have : s.data.head? = w.data.head? := by rw [hsw]
      rw [hdata] at this
      rcases hw with hw | hw | hw <;> rw [hw] at this <;>
        simp only [List.head?_cons, Option.some.injEq] at this <;> cases this
    have htrim : jsTrim s = s := by
      refine jsTrim_id fun cc hcc => ?_
      rw [hdata] at hcc
      rcases List.mem_cons.mp hcc with rfl | hcc'
      · rfl
      · exact digit_not_ws (natRepr_all_digits (m + 1) cc hcc')
    have hradix : jsRadixShape s.data = false := by
      refine radix_false_of_digit_second fun x r hxr => ?_
      rw [hdata] at hxr
      simp only [List.tail_cons] at hxr
      exact natRepr_all_digits (m + 1) x (hxr ▸ List.mem_cons_self x r)
    have hminus : (s.data.head? == some '-') = true := by
      rw [hdata]
      rfl
    have hempty : s.data.isEmpty = false := by
      rw [hdata]; rfl
    have htail : s.data.tail = (Nat.repr (m + 1)).data := by
      rw [hdata, List.tail_cons]
    have hnotinf : ¬(Nat.repr (m + 1)).data = ['I', 'n', 'f', 'i', 'n', 'i', 't', 'y'] := by
      rw [hcons]
      intro h
      injection h with h1 _
      rw [h1] at hc
      cases hc
    have hshape : jsNumericShape s = true := by
      simp only [jsNumericShape, htrim, hempty, Bool.false_eq_true, if_false, hradix,
        hminus, Bool.or_true, if_true, htail, if_neg hnotinf]
      exact decimal_true_of_digits (natRepr_ne_nil (m + 1))
        (List.all_eq_true.mpr (natRepr_all_digits (m + 1)))
    have hval : jsNumberVal s = Int.negSucc m := by
      simp only [jsNumberVal, htrim, hradix, Bool.false_eq_true, if_false, hminus,
        Bool.or_true, if_true, htail]
      rw [show (Nat.repr (m + 1)).data.isEmpty = false by rw [hcons]; rfl,
        List.all_eq_true.mpr (natRepr_all_digits (m + 1))]
      simp only [Bool.not_false, Bool.and_self, if_pos rfl, if_true, natRepr_val]
      rw [Int.negSucc_eq]
      simp
    have htrue : ¬s = "true" := hlit "true" (Or.inr (Or.inl rfl))
    have hfalse : ¬s = "false" := hlit "false" (Or.inr (Or.inr rfl))
    have hnull : ¬s = "null" := hlit "null" (Or.inl rfl)
    have hsne : s.data ≠ [] := by
      rw [hdata]
      simp
    simp only [parseRefS, parseReference, if_neg htrue, if_neg hfalse, if_neg hnull, hshape,
      htrim, strIsEmpty_false hsne, Bool.not_false, Bool.and_self, Bool.true_and,
      if_pos rfl, hval, if_true]

theorem jsParseInt_intRepr (n : Int) : jsParseInt (Int.repr n) = some n := by
  cases n with
  | ofNat m =>
    rw [intRepr_ofNat, jsParseInt_all_digits (Nat.repr m) (natRepr_ne_nil m)
      (List.all_eq_true.mpr (natRepr_all_digits m)), natRepr_val]
    rfl
  | negSucc m =>
    have hdata : (Int.repr (Int.negSucc m)).data = '-' :: (Nat.repr (m + 1)).data := by
      rw [intRepr_negSucc]
      rfl
    obtain ⟨c, cs, hcons⟩ := List.exists_cons_of_ne_nil (natRepr_ne_nil (m + 1))
    have hcd : c.isDigit = true :=
      natRepr_all_digits (m + 1) c (by rw [hcons]; exact List.mem_cons_self c cs)
    have hdrop : (Int.repr (Int.negSucc m)).data.dropWhile jsWhitespace =
        '-' :: (Nat.repr (m + 1)).data := by
      rw [hdata, List.dropWhile_cons, show jsWhitespace '-' = false from rfl]
      simp
    have hhex : (((Nat.repr (m + 1)).data.head? == some '0') &&
        ((Nat.repr (m + 1)).data.tail.head? == some 'x' ||
         (Nat.repr (m + 1)).data.tail.head? == some 'X')) = false := by
      rw [hcons]
      cases cs with
      | nil => simp
      | cons c2 cs2 =>
        have hc2 : c2.isDigit = true :=
          natRepr_all_digits (m + 1) c2 (by rw [hcons]; exact List.mem_cons_of_mem c (List.mem_cons_self c2 cs2))
        simp only [List.tail_cons, List.head?_cons,
          show ((some c2 : Option Char) == some 'x') = (c2 == 'x') from rfl,
          show ((some c2 : Option Char) == some 'X') = (c2 == 'X') from rfl,
          digit_beq_false hc2 (d := 'x') (by decide),
          digit_beq_false hc2 (d := 'X') (by decide),
          Bool.or_self, Bool.and_false]
    have htake : (Nat.repr (m + 1)).data.takeWhile Char.isDigit = (Nat.repr (m + 1)).data :=
      List.takeWhile_eq_self_iff.mpr (natRepr_all_digits (m + 1))
    have hempty : (Nat.repr (m + 1)).data.isEmpty = false := by
      rw [hcons]; rfl
    simp only [jsParseInt, hdrop, List.head?_cons, List.tail_cons,
      show ((some '-' : Option Char) == some '-') = true from rfl, Bool.true_or, if_true,
      hhex, Bool.false_eq_true, if_false, htake, hempty, if_true, natRepr_val]
    rw [Int.negSucc_eq]
    rfl

/-! # Claim C5: round-tripping format through the extractors -/

theorem strNe_empty {s : String} (h : s.data ≠ []) : s ≠ "" := by
  intro he
  apply h
  rw [he]

theorem tokRun_lines :
    ∀ L : List Prim,
      (∀ v ∈ L, (jsStringOfPrim v).data ≠ [] ∧
        ∀ c ∈ (jsStringOfPrim v).data, bareChar c = true) →
      tokRun .base
          ((L.foldr (fun v acc => "  " ++ jsStringOfPrim v ++ "\n" ++ acc) "").data ++ [')']) =
        some (L.map (fun v => Tok.tok (jsStringOfPrim v)) ++ [Tok.rp]) := by
  intro L
  induction L with
  | nil => intro _; rfl
  | cons v t ih =>
    intro hL
    obtain ⟨hne, hbare⟩ := hL v (List.mem_cons_self v t)
    have hdata :
        ((v :: t).foldr (fun v acc => "  " ++ jsStringOfPrim v ++ "\n" ++ acc) "").data ++ [')'] =
          ' ' :: ' ' :: ((jsStringOfPrim v).data ++ ('\n' ::
            ((t.foldr (fun v acc => "  " ++ jsStringOfPrim v ++ "\n" ++ acc) "").data ++ [')']))) := by
      simp only [List.foldr_cons, strData_append]
      simp [List.append_assoc]
    rw [hdata, tokRun_base_ws (c := ' ') rfl, tokRun_base_ws (c := ' ') rfl,
      tokRun_base_bare_token (jsStringOfPrim v).data hne hbare
        ('\n' :: ((t.foldr (fun v acc => "  " ++ jsStringOfPrim v ++ "\n" ++ acc) "").data
          ++ [')']))
        (show bareChar '\n' = false from rfl),
      tokRun_base_ws (c := '\n') rfl, ih (fun w hw => hL w (List.mem_cons_of_mem v hw))]
    rfl

/-- The parsed values of a flat list: one Reference per rendered text. -/
def refNodes : List Prim → LList
  | [] => .nil
  | v :: t => .cons (refNode (jsStringOfPrim v)) (refNodes t)

theorem canonList_refNodes : ∀ L : List Prim, canonList (refNodes L)
  | [] => trivial
  | _ :: t => ⟨trivial, canonList_refNodes t⟩

theorem listToks_refNodes : ∀ L : List Prim,
    listToks (refNodes L) = L.map (fun v => Tok.tok (jsStringOfPrim v))
  | [] => rfl
  | v :: t => by
    show Tok.tok (jsStringOfPrim v) :: listToks (refNodes t) = _
    rw [listToks_refNodes t, List.map_cons]

theorem tokenize_format_cons (v : Prim) (t : List Prim)
    (hL : ∀ w ∈ v :: t, (jsStringOfPrim w).data ≠ [] ∧
      ∀ c ∈ (jsStringOfPrim w).data, bareChar c = true) :
    tokenize (format (v :: t)) =
      some (listToks (LList.cons (LNode.mk none (refNodes (v :: t))) LList.nil)) := by
  rw [format_cons_lines]
  show tokRun .base (formatLinesSpec (v :: t)).data = _
  have hdata : (formatLinesSpec (v :: t)).data =
      '(' :: '\n' ::
        (((v :: t).foldr (fun v acc => "  " ++ jsStringOfPrim v ++ "\n" ++ acc) "").data
          ++ [')']) := by
    simp only [formatLinesSpec, strData_append]
    simp [List.append_assoc]
  rw [hdata, tokRun_base_lp rfl, tokRun_base_ws (c := '\n') rfl, tokRun_lines (v :: t) hL]
  show some (Tok.lp :: ((v :: t).map (fun v => Tok.tok (jsStringOfPrim v)) ++ [Tok.rp])) = _
  rw [show listToks (LList.cons (LNode.mk none (refNodes (v :: t))) LList.nil) =
      (Tok.lp :: listToks (refNodes (v :: t)) ++ [Tok.rp]) ++ [] from rfl]
  rw [listToks_refNodes (v :: t)]
  simp

theorem format_cons_ne_empty (v : Prim) (t : List Prim) : ¬format (v :: t) = "" := by
  rw [format_cons_lines]
  intro h
  have := congrArg String.data h
  simp [formatLinesSpec] at this

theorem parseLino_format_cons (v : Prim) (t : List Prim)
    (hL : ∀ w ∈ v :: t, (jsStringOfPrim w).data ≠ [] ∧
      ∀ c ∈ (jsStringOfPrim w).data, bareChar c = true) :
    parseLino (format (v :: t)) =
      some (LList.cons (LNode.mk none (refNodes (v :: t))) LList.nil) :=
  parseLino_of_toks _ _ ⟨canonList_refNodes (v :: t), trivial⟩ (tokenize_format_cons v t hL)

theorem extractVals_refNodes : ∀ L : List Prim, (∀ v ∈ L, jsStringOfPrim v ≠ "") →
    extractVals (refNodes L) = L.map (fun v => ParsedVal.str (jsStringOfPrim v))
  | [], _ => rfl
  | v :: t, h => by
    show (if jsStringOfPrim v = "" then ParsedVal.node (refNode (jsStringOfPrim v))
        else ParsedVal.str (jsStringOfPrim v)) :: extractVals (refNodes t) = _
    rw [if_neg (h v (List.mem_cons_self v t)),
      extractVals_refNodes t (fun w hw => h w (List.mem_cons_of_mem v hw)), List.map_cons]

theorem stringFromVals_refNodes : ∀ L : List Prim, (∀ v ∈ L, jsStringOfPrim v ≠ "") →
    stringFromVals (refNodes L) = L.map jsStringOfPrim
  | [], _ => rfl
  | v :: t, h => by
    show (if jsStringOfPrim v = "" then stringFromVals (refNodes t)
        else jsStringOfPrim v :: stringFromVals (refNodes t)) = _
    rw [if_neg (h v (List.mem_cons_self v t)),
      stringFromVals_refNodes t (fun w hw => h w (List.mem_cons_of_mem v hw)), List.map_cons]

/-- C5 claim-side projection of the numeric elements of the original list. -/
def numElemSpec : Prim → Option Int
  | .num n => some n
  | _ => none

/-- C5 claim-side projection of the string elements of the original list. -/
def strElemSpec : Prim → Option String
  | .str s => some s
  | _ => none

/-- C5 counterexample: for the mixed list `[1, "abc"]`, the string
projection of `parse(format(L))` returns the texts of *all* elements —
`["1", "abc"]` — not the string elements `["abc"]` of `L` that the claim
requires. -/
theorem c5_counterexample :
    parseStringValues (some (format [Prim.num 1, Prim.str "abc"])) = some ["1", "abc"] ∧
    [Prim.num 1, Prim.str "abc"].filterMap strElemSpec = ["abc"] ∧
    parseStringValues (some (format [Prim.num 1, Prim.str "abc"])) ≠
      some ([Prim.num 1, Prim.str "abc"].filterMap strElemSpec) :=
  ⟨rfl, rfl, by decide⟩

/-- C5 (amended): for every finite list of primitives whose rendered texts
are non-empty and contain no whitespace, quote or parenthesis (`format`
does not escape, so such characters would split or merge tokens),
`parse(format(L))` yields the rendered texts of *all* elements in original
order; the string projection is those texts (not only the string
elements); the numeric projection reads each text with JS `parseInt`, so
it equals the numeric elements of `L` in original order provided no string
element's text starts with a readable integer prefix. -/
theorem c5_format_parse_roundtrip (L : List Prim)
    (hL : ∀ v ∈ L, (jsStringOfPrim v).data ≠ [] ∧
      ∀ c ∈ (jsStringOfPrim v).data, bareChar c = true) :
    parse (some (format L)) = some (L.map (fun v => ParsedVal.str (jsStringOfPrim v))) ∧
    parseStringValues (some (format L)) = some (L.map jsStringOfPrim) ∧
    parseNumericIds (some (format L)) =
      some (L.filterMap (fun v => jsParseInt (jsStringOfPrim v))) ∧
    ((∀ s : String, Prim.str s ∈ L → jsParseInt s = none) →
      parseNumericIds (some (format L)) = some (L.filterMap numElemSpec)) := by
  cases L with
  | nil => exact ⟨rfl, rfl, rfl, fun _ => rfl⟩
  | cons v t =>
    have hp := parseLino_format_cons v t hL
    have hne := format_cons_ne_empty v t
    have hstrne : ∀ w ∈ v :: t, jsStringOfPrim w ≠ "" :=
      fun w hw => strNe_empty (hL w hw).1
    have h3 : parseNumericIds (some (format (v :: t))) =
        some ((v :: t).filterMap (fun w => jsParseInt (jsStringOfPrim w))) := by
      simp only [parseNumericIds, if_neg hne, hp]
      show some (numericFromVals (refNodes (v :: t))) = _
      rw [numericFromVals_eq, extractVals_refNodes (v :: t) hstrne, List.filterMap_map]
      rfl
    refine ⟨?_, ?_, h3, fun hnum => ?_⟩
    · simp only [parse, if_neg hne, hp]
      show some (extractVals (refNodes (v :: t))) = _
      rw [extractVals_refNodes (v :: t) hstrne]
    · simp only [parseStringValues, if_neg hne, hp]
      show some (stringFromVals (refNodes (v :: t))) = _
      rw [stringFromVals_refNodes (v :: t) hstrne]
    · rw [h3]
      congr 1
      refine List.filterMap_congr ?_
      intro w hw
      match w with
      | .num n => exact jsParseInt_intRepr n
      | .bool true => rfl
      | .bool false => rfl
      | .null => rfl
      | .str s => rw [show jsStringOfPrim (.str s) = s from rfl, hnum s hw]; rfl

/-- C5 witness: the list `[1, 2, 3]` round-trips; its numeric projection
recovers exactly the original numbers. -/
theorem c5_format_parse_roundtrip_witness :
    parseNumericIds (some (format [Prim.num 1, Prim.num 2, Prim.num 3])) =
      some ([Prim.num 1, Prim.num 2, Prim.num 3].filterMap numElemSpec) :=
  (c5_format_parse_roundtrip [Prim.num 1, Prim.num 2, Prim.num 3] (by decide)).2.2.2
    (by
      intro s hs
      simp at hs)

/-! # Claim C1: the JSON round trip

The encoded form of a JSON tree, its parsed-record image, and the safety
conditions under which decoding the encoding is the identity. -/

mutual
/-- The parsed record the printed form of a JSON tree tokenizes and parses
to: primitives become References carrying their rendered token text,
containers become Links. -/
def jsonToNode : Json → LNode
  | .null => refNode "null"
  | .bool b => refNode (cond b "true" "false")
  | .num n => refNode n.repr
  | .str s => refNode s
  | .arr es => .mk none (jsonToNodeList es)
  | .obj kvs => .mk none (jsonToNodeEntries kvs)
def jsonToNodeList : JList → LList
  | .nil => .nil
  | .cons e t => .cons (jsonToNode e) (jsonToNodeList t)
def jsonToNodeEntries : JEntries → LList
  | .nil => .nil
  | .cons k v t =>
    .cons (.mk none (.cons (refNode k) (.cons (jsonToNode v) .nil))) (jsonToNodeEntries t)
end

/-- A JSON value whose encoding is accepted by the decoder's pair test: a
two-element array whose first component is a non-numeric primitive.  Such
elements make a surrounding array decode as an object. -/
def encPairShaped : Json → Bool
  | .arr (.cons k (.cons _ .nil)) =>
    match k with
    | .null => true
    | .bool _ => true
    | .str _ => true
    | _ => false
  | _ => false

def allEncPairShaped : JList → Bool
  | .nil => true
  | .cons e t => encPairShaped e && allEncPairShaped t

def JEntries.keys : JEntries → List String
  | .nil => []
  | .cons k _ t => k :: t.keys

def JEntries.append : JEntries → JEntries → JEntries
  | .nil, l => l
  | .cons k v t, l => .cons k v (t.append l)

mutual
/-- The safety conditions of the amended C1: every string leaf is
non-empty and reads back as itself (it does not look like a number,
boolean or `null`); there is no empty array or object; no non-empty array
consists entirely of pair-shaped elements; object keys are non-empty, are
not the accessor key `__proto__` (whose JS assignment creates no own
property), do not read as numbers, and are distinct within an object. -/
def safeJson : Json → Prop
  | .null => True
  | .bool _ => True
  | .num _ => True
  | .str s => s ≠ "" ∧ parseRefS s = .str s
  | .arr .nil => False
  | .arr (.cons e t) =>
    allEncPairShaped (.cons e t) = false ∧ safeList (.cons e t)
  | .obj .nil => False
  | .obj (.cons k v t) => safeEntries (.cons k v t)
def safeList : JList → Prop
  | .nil => True
  | .cons e t => safeJson e ∧ safeList t
def safeEntries : JEntries → Prop
  | .nil => True
  | .cons k v t =>
    k ≠ "" ∧ k ≠ "__proto__" ∧ isNumPrim (parseRefS k) = false ∧ k ∉ t.keys ∧
      safeJson v ∧ safeEntries t
end

theorem jentries_append_nil : ∀ l : JEntries, l.append .nil = l
  | .nil => rfl
  | .cons k v t => by
    show JEntries.cons k v (t.append .nil) = JEntries.cons k v t
    rw [jentries_append_nil t]

theorem jentries_append_assoc : ∀ a b c : JEntries, (a.append b).append c = a.append (b.append c)
  | .nil, _, _ => rfl
  | .cons k v t, b, c => by
    show JEntries.cons k v ((t.append b).append c) = JEntries.cons k v (t.append (b.append c))
    rw [jentries_append_assoc t b c]

theorem jentries_keys_append : ∀ a b : JEntries, (a.append b).keys = a.keys ++ b.keys
  | .nil, _ => rfl
  | .cons k v t, b => by
    show k :: (t.append b).keys = (k :: t.keys) ++ b.keys
    rw [jentries_keys_append t b]
    rfl

/-- Inserting a fresh key appends it. -/
theorem jsObjInsert_fresh : ∀ (acc : JEntries) (k : String) (v : Json), k ∉ acc.keys →
    jsObjInsert acc k v = acc.append (.cons k v .nil)
  | .nil, _, _, _ => rfl
  | .cons k' v' t, k, v, h => by
    have hk : ¬k' = k := by
      intro he
      exact h (he ▸ List.mem_cons_self k' t.keys)
    show (if k' = k then JEntries.cons k' v t else JEntries.cons k' v' (jsObjInsert t k v)) = _
    rw [if_neg hk, jsObjInsert_fresh t k v (fun hm => h (List.mem_cons_of_mem k' hm))]
    rfl

/-- Away from the `__proto__` accessor key, JS assignment is ordinary
own-property insertion. -/
theorem jsObjAssign_ne (l : JEntries) (k : String) (v : Json) (h : k ≠ "__proto__") :
    jsObjAssign l k v = jsObjInsert l k v := if_neg h

theorem jsObjFromPairsAux_nodup :
    ∀ (l acc : JEntries), l.keys.Nodup → (∀ k ∈ l.keys, k ∉ acc.keys) →
      (∀ k ∈ l.keys, k ≠ "__proto__") →
      jsObjFromPairsAux acc l = acc.append l
  | .nil, acc, _, _, _ => (jentries_append_nil acc).symm
  | .cons k v t, acc, hnd, hdisj, hpr => by
    show jsObjFromPairsAux (jsObjAssign acc k v) t = _
    have hk : k ∉ acc.keys := hdisj k (List.mem_cons_self k t.keys)
    rw [jsObjAssign_ne acc k v (hpr k (List.mem_cons_self k t.keys)),
      jsObjInsert_fresh acc k v hk]
    have hnd' : t.keys.Nodup := (List.nodup_cons.mp hnd).2
    have hknt : k ∉ t.keys := (List.nodup_cons.mp hnd).1
    rw [jsObjFromPairsAux_nodup t (acc.append (.cons k v .nil)) hnd' ?_ ?_]
    · rw [jentries_append_assoc]
      rfl
    · intro k' hk'
      rw [jentries_keys_append]
      intro hmem
      rcases List.mem_append.mp hmem with h1 | h2
      · exact hdisj k' (List.mem_cons_of_mem k hk') h1
      · rcases List.mem_singleton.mp (by simpa [JEntries.keys] using h2) with rfl
        exact hknt hk'
    · intro k' hk'
      exact hpr k' (List.mem_cons_of_mem k hk')

theorem jsObjFromPairs_nodup (l : JEntries) (h : l.keys.Nodup)
    (hp : ∀ k ∈ l.keys, k ≠ "__proto__") : jsObjFromPairs l = l := by
  unfold jsObjFromPairs
  rw [jsObjFromPairsAux_nodup l .nil h (fun k _ hk => by cases hk) hp]
  rfl

mutual
theorem canon_jsonToNode : ∀ T : Json, canonNode (jsonToNode T)
  | .null => trivial
  | .bool _ => trivial
  | .num _ => trivial
  | .str _ => trivial
  | .arr es => canon_jsonToNodeList es
  | .obj kvs => canon_jsonToNodeEntries kvs
theorem canon_jsonToNodeList : ∀ es : JList, canonList (jsonToNodeList es)
  | .nil => trivial
  | .cons e t => ⟨canon_jsonToNode e, canon_jsonToNodeList t⟩
theorem canon_jsonToNodeEntries : ∀ kvs : JEntries, canonList (jsonToNodeEntries kvs)
  | .nil => trivial
  | .cons _ v t => ⟨⟨trivial, canon_jsonToNode v, trivial⟩, canon_jsonToNodeEntries t⟩
end

theorem strFoldl_prefix (sep : String) :
    ∀ (l : List String) (p b : String),
      l.foldl (fun acc x => acc ++ sep ++ x) (p ++ b) =
        p ++ l.foldl (fun acc x => acc ++ sep ++ x) b := by
  intro l
  induction l with
  | nil => intro p b; rfl
  | cons x t ih =>
    intro p b
    rw [List.foldl_cons, List.foldl_cons, strAppend_assoc (p ++ b) sep x,
      strAppend_assoc p b (sep ++ x), ← strAppend_assoc b sep x, ih p (b ++ sep ++ x)]

theorem jsJoin_cons_cons (sep a b : String) (l : List String) :
    jsJoin sep (a :: b :: l) = a ++ sep ++ jsJoin sep (b :: l) := by
  show (b :: l).foldl (fun acc x => acc ++ sep ++ x) a = _
  rw [List.foldl_cons, show a ++ sep ++ b = (a ++ sep) ++ b from rfl,
    strFoldl_prefix sep l (a ++ sep) b]
  rfl

theorem strData_ne_nil {s : String} (h : s ≠ "") : s.data ≠ [] := by
  intro hd
  exact h (strExt hd)

mutual
/-- Tokenizing the compact printed form of a safe JSON tree, followed by a
separator, yields the token list of its parsed image. -/
theorem tokA : ∀ (T : Json), safeJson T → ∀ rest : List Char, sepHead rest →
    tokRun .base ((jsonToLino T).data ++ rest) =
      (tokRun .base rest).map (fun ts => nodeToks (jsonToNode T) ++ ts)
  | .null, _ => by
    intro rest hrest
    show tokRun .base ("null".data ++ rest) = _
    rw [tokRun_base_bare_token "null".data (by decide) (by decide) rest
      (sepHead_delimHead hrest)]
    rfl
  | .bool true, _ => by
    intro rest hrest
    show tokRun .base ("true".data ++ rest) = _
    rw [tokRun_base_bare_token "true".data (by decide) (by decide) rest
      (sepHead_delimHead hrest)]
    rfl
  | .bool false, _ => by
    intro rest hrest
    show tokRun .base ("false".data ++ rest) = _
    rw [tokRun_base_bare_token "false".data (by decide) (by decide) rest
      (sepHead_delimHead hrest)]
    rfl
  | .num n, _ => by
    intro rest hrest
    show tokRun .base ((Int.repr n).data ++ rest) = _
    rw [tokRun_base_bare_token (Int.repr n).data (intRepr_ne_nil n) (intRepr_bare n) rest
      (sepHead_delimHead hrest)]
    rfl
  | .str s, hT => by
    intro rest hrest
    show tokRun .base ((escapeReference (.str s)).data ++ rest) = _
    rw [tokRun_escape_token s (strData_ne_nil hT.1) rest hrest]
    rfl
  | .arr .nil, hT => fun _ _ => False.elim (by exact hT)
  | .arr (.cons e t), hT => by
    intro rest hrest
    obtain ⟨-, he, ht⟩ : allEncPairShaped (.cons e t) = false ∧ safeJson e ∧ safeList t := hT
    show tokRun .base
      (("(" ++ jsJoin " " (jsonToLinoList (.cons e t)) ++ ")").data ++ rest) = _
    have hd : ("(" ++ jsJoin " " (jsonToLinoList (.cons e t)) ++ ")").data ++ rest =
        '(' :: ((jsJoin " " (jsonToLinoList (.cons e t))).data ++ (')' :: rest)) := by
      simp [List.append_assoc]
    rw [hd, tokRun_base_lp rfl,
      tokL e t he ht (')' :: rest) (Or.inr (Or.inr ⟨rest, rfl⟩)),
      tokRun_base_rp rfl]
    cases tokRun .base rest with
    | none => rfl
    | some ts =>
      show some (Tok.lp :: (listToks (jsonToNodeList (.cons e t)) ++ (Tok.rp :: ts))) =
        some ((Tok.lp :: listToks (jsonToNodeList (.cons e t)) ++ [Tok.rp]) ++ ts)
      simp [List.append_assoc]
  | .obj .nil, hT => fun _ _ => False.elim (by exact hT)
  | .obj (.cons k v t), hT => by
    intro rest hrest
    show tokRun .base
      (("(" ++ jsJoin " " (jsonToLinoEntries (.cons k v t)) ++ ")").data ++ rest) = _
    have hd : ("(" ++ jsJoin " " (jsonToLinoEntries (.cons k v t)) ++ ")").data ++ rest =
        '(' :: ((jsJoin " " (jsonToLinoEntries (.cons k v t))).data ++ (')' :: rest)) := by
      simp [List.append_assoc]
    rw [hd, tokRun_base_lp rfl,
      tokE k v t hT (')' :: rest) (Or.inr (Or.inr ⟨rest, rfl⟩)),
      tokRun_base_rp rfl]
    cases tokRun .base rest with
    | none => rfl
    | some ts =>
      show some (Tok.lp :: (listToks (jsonToNodeEntries (.cons k v t)) ++ (Tok.rp :: ts))) =
        some ((Tok.lp :: listToks (jsonToNodeEntries (.cons k v t)) ++ [Tok.rp]) ++ ts)
      simp [List.append_assoc]
termination_by T _ => sizeOf T
decreasing_by all_goals simp_wf <;> omega
theorem tokL : ∀ (e : Json) (t : JList), safeJson e → safeList t →
    ∀ rest : List Char, sepHead rest →
      tokRun .base ((jsJoin " " (jsonToLinoList (.cons e t))).data ++ rest) =
        (tokRun .base rest).map (fun ts => listToks (jsonToNodeList (.cons e t)) ++ ts)
  | e, .nil, he, _ => by
    intro rest hrest
    show tokRun .base ((jsonToLino e).data ++ rest) = _
    rw [tokA e he rest hrest]
    cases tokRun .base rest with
    | none => rfl
    | some ts =>
      show some (nodeToks (jsonToNode e) ++ ts) =
        some ((nodeToks (jsonToNode e) ++ []) ++ ts)
      simp
  | e, .cons e2 t2, he, ht => by
    intro rest hrest
    have hjoin : jsJoin " " (jsonToLinoList (.cons e (.cons e2 t2))) =
        jsonToLino e ++ " " ++ jsJoin " " (jsonToLinoList (.cons e2 t2)) :=
      jsJoin_cons_cons " " (jsonToLino e) (jsonToLino e2) (jsonToLinoList t2)
    rw [hjoin]
    have hd : (jsonToLino e ++ " " ++ jsJoin " " (jsonToLinoList (.cons e2 t2))).data ++ rest =
        (jsonToLino e).data ++
          (' ' :: ((jsJoin " " (jsonToLinoList (.cons e2 t2))).data ++ rest)) := by
      simp [List.append_assoc]
    rw [hd, tokA e he _ (Or.inr (Or.inl ⟨_, rfl⟩)), tokRun_base_ws (c := ' ') rfl,
      tokL e2 t2 ht.1 ht.2 rest hrest]
    cases tokRun .base rest with
    | none => rfl
    | some ts =>
      show some (nodeToks (jsonToNode e) ++ (listToks (jsonToNodeList (.cons e2 t2)) ++ ts)) =
        some ((nodeToks (jsonToNode e) ++ listToks (jsonToNodeList (.cons e2 t2))) ++ ts)
      simp [List.append_assoc]
termination_by e t _ _ => sizeOf e + sizeOf t + 1
decreasing_by all_goals simp_wf <;> omega
theorem tokE : ∀ (k : String) (v : Json) (t : JEntries), safeEntries (.cons k v t) →
    ∀ rest : List Char, sepHead rest →
      tokRun .base ((jsJoin " " (jsonToLinoEntries (.cons k v t))).data ++ rest) =
        (tokRun .base rest).map (fun ts => listToks (jsonToNodeEntries (.cons k v t)) ++ ts)
  | k, v, .nil, hT => by
    intro rest hrest
    obtain ⟨hk, -, -, -, hv, -⟩ := hT
    show tokRun .base
      (("(" ++ escapeReference (.str k) ++ " " ++ jsonToLino v ++ ")").data ++ rest) = _
    have hd : ("(" ++ escapeReference (.str k) ++ " " ++ jsonToLino v ++ ")").data ++ rest =
        '(' :: ((escapeReference (.str k)).data ++
          (' ' :: ((jsonToLino v).data ++ (')' :: rest)))) := by
      simp [List.append_assoc]
    rw [hd, tokRun_base_lp rfl, tokRun_escape_token k (strData_ne_nil hk) _
      (Or.inr (Or.inl ⟨_, rfl⟩)), tokRun_base_ws (c := ' ') rfl,
      tokA v hv _ (Or.inr (Or.inr ⟨rest, rfl⟩)), tokRun_base_rp rfl]
    cases tokRun .base rest with
    | none => rfl
    | some ts =>
      show some (Tok.lp :: (Tok.tok k :: (nodeToks (jsonToNode v) ++ (Tok.rp :: ts)))) =
        some ((listToks (jsonToNodeEntries (.cons k v .nil))) ++ ts)
      show _ = some (((Tok.lp :: (Tok.tok k :: (nodeToks (jsonToNode v) ++ [])) ++ [Tok.rp])
        ++ []) ++ ts)
      simp [List.append_assoc]
  | k, v, .cons k2 v2 t2, hT => by
    intro rest hrest
    obtain ⟨hk, -, -, -, hv, ht⟩ := hT
    have hjoin : jsJoin " " (jsonToLinoEntries (.cons k v (.cons k2 v2 t2))) =
        ("(" ++ escapeReference (.str k) ++ " " ++ jsonToLino v ++ ")") ++ " " ++
          jsJoin " " (jsonToLinoEntries (.cons k2 v2 t2)) :=
      jsJoin_cons_cons " " _ _ _
    rw [hjoin]
    have hd : ((("(" ++ escapeReference (.str k) ++ " " ++ jsonToLino v ++ ")") ++ " " ++
        jsJoin " " (jsonToLinoEntries (.cons k2 v2 t2))).data ++ rest) =
        '(' :: ((escapeReference (.str k)).data ++
          (' ' :: ((jsonToLino v).data ++ (')' ::
            (' ' :: ((jsJoin " " (jsonToLinoEntries (.cons k2 v2 t2))).data ++ rest)))))) := by
      simp [List.append_assoc]
    rw [hd, tokRun_base_lp rfl, tokRun_escape_token k (strData_ne_nil hk) _
      (Or.inr (Or.inl ⟨_, rfl⟩)), tokRun_base_ws (c := ' ') rfl,
      tokA v hv _ (Or.inr (Or.inr ⟨_, rfl⟩)), tokRun_base_rp rfl,
      tokRun_base_ws (c := ' ') rfl, tokE k2 v2 t2 ht rest hrest]
    cases tokRun .base rest with
    | none => rfl
    | some ts =>
      show some (Tok.lp :: (Tok.tok k :: (nodeToks (jsonToNode v) ++ (Tok.rp ::
          (listToks (jsonToNodeEntries (.cons k2 v2 t2)) ++ ts))))) =
        some (listToks (jsonToNodeEntries (.cons k v (.cons k2 v2 t2))) ++ ts)
      show _ = some (((Tok.lp :: (Tok.tok k :: (nodeToks (jsonToNode v) ++ [])) ++ [Tok.rp])
        ++ listToks (jsonToNodeEntries (.cons k2 v2 t2))) ++ ts)
      simp [List.append_assoc]
termination_by k v t _ => sizeOf v + sizeOf t + 1
decreasing_by all_goals simp_wf <;> omega
end

theorem tokenize_jsonToLino (T : Json) (hT : safeJson T) :
    tokenize (jsonToLino T) = some (nodeToks (jsonToNode T)) := by
  have h := tokA T hT [] (Or.inl rfl)
  rw [List.append_nil] at h
  show tokRun .base (jsonToLino T).data = _
  rw [h]
  show some (nodeToks (jsonToNode T) ++ []) = _
  rw [List.append_nil]

theorem parseLino_jsonToLino (T : Json) (hT : safeJson T) :
    parseLino (jsonToLino T) = some (.cons (jsonToNode T) .nil) := by
  apply parseLino_of_toks (jsonToLino T) (.cons (jsonToNode T) .nil)
    ⟨canon_jsonToNode T, trivial⟩
  rw [tokenize_jsonToLino T hT]
  show some (nodeToks (jsonToNode T)) = some (nodeToks (jsonToNode T) ++ [])
  rw [List.append_nil]

/-- A key whose parsed reference is not a number renders back to itself
under the JS property-key coercion `String(...)`. -/
theorem jsString_parseRef (k : String) (hnum : isNumPrim (parseRefS k) = false) :
    jsStringOfPrim (parseRefS k) = k := by
  by_cases h1 : k = "true"
  · subst h1; rfl
  by_cases h2 : k = "false"
  · subst h2; rfl
  by_cases h3 : k = "null"
  · subst h3; rfl
  by_cases h4 : (jsNumericShape k && !(jsTrim k).isEmpty) = true
  · have hk : parseRefS k = .num (jsNumberVal k) := by
      simp [parseRefS, parseReference, h1, h2, h3, h4]
    rw [hk] at hnum
    exact absurd hnum (by simp [isNumPrim])
  · have hk : parseRefS k = .str k := by
      simp [parseRefS, parseReference, h1, h2, h3, h4]
    rw [hk]
    rfl

/-- A Link whose first element is itself a Link fails the decoder's pair
test whatever follows. -/
theorem childPairB_first_link (x : LNode) (l1 rest : LList) :
    childPairB (.mk none (.cons (.mk none (.cons x l1)) rest)) = false := by
  cases rest with
  | nil => rfl
  | cons c r =>
    cases r with
    | nil => rfl
    | cons d r2 => rfl

/-- The decoder's pair test on an encoded child agrees with `encPairShaped`
on the original JSON value. -/
theorem codePair (x : Json) (hx : safeJson x) :
    childPairB (jsonToNode x) = encPairShaped x := by
  cases x with
  | null => rfl
  | bool b => cases b <;> rfl
  | num n => rfl
  | str s => rfl
  | obj l =>
    cases l with
    | nil => exact False.elim (by exact hx)
    | cons k v t =>
      exact childPairB_first_link (refNode k) (.cons (jsonToNode v) .nil)
        (jsonToNodeEntries t)
  | arr l =>
    cases l with
    | nil => rfl
    | cons a r =>
      cases r with
      | nil => rfl
      | cons b r2 =>
        cases r2 with
        | cons c r3 => rfl
        | nil =>
          cases a with
          | null => rfl
          | bool bb => cases bb <;> rfl
          | num n =>
            show (!isNumPrim (parseRefS (Int.repr n))) = false
            rw [parseRefS_intRepr n]
            rfl
          | str s =>
            have hps : parseRefS s = .str s := hx.2.1.2
            show (!isNumPrim (parseRefS s)) = true
            rw [hps]
            rfl
          | arr la =>
            cases la with
            | nil => exact False.elim (by exact hx.2.1)
            | cons x2 r4 => rfl
          | obj lo =>
            cases lo with
            | nil => exact False.elim (by exact hx.2.1)
            | cons k2 v2 t2 => rfl

theorem allPairs_enc : ∀ l : JList, safeList l →
    allPairsB (jsonToNodeList l) = allEncPairShaped l
  | .nil, _ => rfl
  | .cons e t, h => by
    show (childPairB (jsonToNode e) && allPairsB (jsonToNodeList t)) =
      allEncPairShaped (.cons e t)
    rw [codePair e h.1, allPairs_enc t h.2]
    rfl

theorem allPairs_entries : ∀ l : JEntries, safeEntries l →
    allPairsB (jsonToNodeEntries l) = true
  | .nil, _ => rfl
  | .cons k v t, h => by
    show (childPairB (.mk none (.cons (refNode k) (.cons (jsonToNode v) .nil))) &&
      allPairsB (jsonToNodeEntries t)) = true
    rw [allPairs_entries t h.2.2.2.2.2]
    show ((!isNumPrim (parseRefS k)) && true) = true
    rw [h.2.2.1]
    rfl

theorem safeEntries_nodup : ∀ l : JEntries, safeEntries l → l.keys.Nodup
  | .nil, _ => List.nodup_nil
  | .cons k v t, h => by
    show (k :: t.keys).Nodup
    exact List.nodup_cons.mpr ⟨h.2.2.2.1, safeEntries_nodup t h.2.2.2.2.2⟩

theorem safeEntries_no_proto :
    ∀ l : JEntries, safeEntries l → ∀ k ∈ l.keys, k ≠ "__proto__"
  | .nil, _, k, hk => absurd hk (List.not_mem_nil k)
  | .cons k' v t, h, k, hk => by
    rcases List.mem_cons.mp hk with rfl | hm
    · exact h.2.1
    · exact safeEntries_no_proto t h.2.2.2.2.2 k hm

/-- A parsed Link failing the pair test decodes as an array. -/
theorem convertParsed_link_arr (v : LNode) (t : LList)
    (h : allPairsB (.cons v t) = false) :
    convertParsedToJson (.mk none (.cons v t)) = .arr (convertAll (.cons v t)) := by
  show (if allPairsB (.cons v t) = true then
      Json.obj (jsObjFromPairs (rawEntries (.cons v t)))
    else Json.arr (convertAll (.cons v t))) = _
  rw [h]
  rfl

/-- A parsed Link passing the pair test decodes as an object. -/
theorem convertParsed_link_obj (v : LNode) (t : LList)
    (h : allPairsB (.cons v t) = true) :
    convertParsedToJson (.mk none (.cons v t)) =
      .obj (jsObjFromPairs (rawEntries (.cons v t))) := by
  show (if allPairsB (.cons v t) = true then
      Json.obj (jsObjFromPairs (rawEntries (.cons v t)))
    else Json.arr (convertAll (.cons v t))) = _
  rw [h]
  rfl

mutual
/-- Decoding the parsed image of the printed form of a safe JSON tree
recovers the tree. -/
theorem dec_node : ∀ T : Json, safeJson T → convertParsedToJson (jsonToNode T) = T
  | .null, _ => rfl
  | .bool true, _ => rfl
  | .bool false, _ => rfl
  | .num n, _ => by
    show primToJson (parseRefS (Int.repr n)) = .num n
    rw [parseRefS_intRepr n]
    rfl
  | .str s, hT => by
    show primToJson (parseRefS s) = .str s
    rw [hT.2]
    rfl
  | .arr .nil, hT => False.elim (by exact hT)
  | .arr (.cons e t), hT => by
    have hap : allPairsB (.cons (jsonToNode e) (jsonToNodeList t)) = false := by
      have h := allPairs_enc (.cons e t) hT.2
      rw [hT.1] at h
      exact h
    show convertParsedToJson (.mk none (.cons (jsonToNode e) (jsonToNodeList t))) =
      .arr (.cons e t)
    rw [convertParsed_link_arr _ _ hap]
    have hdl : convertAll (.cons (jsonToNode e) (jsonToNodeList t)) = .cons e t := by
      show JList.cons (convertParsedToJson (jsonToNode e)) (convertAll (jsonToNodeList t)) =
        JList.cons e t
      rw [dec_node e hT.2.1, dec_list t hT.2.2]
    rw [hdl]
  | .obj .nil, hT => False.elim (by exact hT)
  | .obj (.cons k v t), hT => by
    have hap : allPairsB
        (.cons (.mk none (.cons (refNode k) (.cons (jsonToNode v) .nil)))
          (jsonToNodeEntries t)) = true := by
      have h := allPairs_entries (.cons k v t) hT
      exact h
    show convertParsedToJson
      (.mk none (.cons (.mk none (.cons (refNode k) (.cons (jsonToNode v) .nil)))
        (jsonToNodeEntries t))) = .obj (.cons k v t)
    rw [convertParsed_link_obj _ _ hap]
    have hraw : rawEntries
        (.cons (.mk none (.cons (refNode k) (.cons (jsonToNode v) .nil)))
          (jsonToNodeEntries t)) = .cons k v t := by
      exact dec_entries (.cons k v t) hT
    rw [hraw, jsObjFromPairs_nodup _ (safeEntries_nodup _ hT) (safeEntries_no_proto _ hT)]
theorem dec_list : ∀ l : JList, safeList l → convertAll (jsonToNodeList l) = l
  | .nil, _ => rfl
  | .cons e t, h => by
    show JList.cons (convertParsedToJson (jsonToNode e)) (convertAll (jsonToNodeList t)) =
      JList.cons e t
    rw [dec_node e h.1, dec_list t h.2]
theorem dec_entries : ∀ l : JEntries, safeEntries l → rawEntries (jsonToNodeEntries l) = l
  | .nil, _ => rfl
  | .cons k v t, h => by
    show JEntries.cons (jsStringOfPrim (parseRefS k)) (convertParsedToJson (jsonToNode v))
      (rawEntries (jsonToNodeEntries t)) = JEntries.cons k v t
    rw [jsString_parseRef k h.2.2.1, dec_node v h.2.2.2.2.1, dec_entries t h.2.2.2.2.2]
end

theorem nodeToks_ne_nil : ∀ T : Json, nodeToks (jsonToNode T) ≠ []
  | .null => fun h => List.noConfusion h
  | .bool _ => fun h => List.noConfusion h
  | .num _ => fun h => List.noConfusion h
  | .str _ => fun h => List.noConfusion h
  | .arr _ => fun h => List.noConfusion h
  | .obj _ => fun h => List.noConfusion h

theorem jsonToLino_ne_empty (T : Json) (hT : safeJson T) : jsonToLino T ≠ "" := by
  intro h
  have ht := tokenize_jsonToLino T hT
  rw [h] at ht
  have h2 : tokenize "" = some [] := rfl
  rw [h2] at ht
  exact nodeToks_ne_nil T (Option.some.inj ht).symm

/-- The extra top-level condition of the amended round trip: a one-element
array holding a primitive is unwrapped by `linoToJson` and cannot round
trip. -/
def topLevelSafe : Json → Prop
  | .arr (.cons x .nil) => isPrimJsonB x = false
  | _ => True

/-- C1 (counterexample): the round trip already fails on a tree with no
empty array and no empty object — `[5]` prints as `"(5)"`, which
`linoToJson` decodes to the bare number `5` (a one-element array of a
primitive is unwrapped), not back to `[5]`. -/
theorem c1_counterexample :
    jsonToLino (Json.arr (.cons (.num 5) .nil)) = "(5)" ∧
    linoToJson (some (jsonToLino (Json.arr (.cons (.num 5) .nil)))) = some (Json.num 5) ∧
    ∀ h : Json.num 5 = Json.arr (.cons (.num 5) .nil), False :=
  ⟨rfl, rfl, fun h => Json.noConfusion h⟩

/-- C1: decoding the encoding is the identity, `linoToJson (jsonToLino T) =
T`, under the amended conditions: every string leaf and every object key is
non-empty and reads back as itself under `_parseReference` (it does not
look like a number, boolean or `null`), the tree has no empty array or
empty object, object keys are distinct within an object and none is the
accessor key `__proto__` (whose JS assignment creates no own property, so
the decoder would drop the entry), no non-empty array
consists entirely of pair-shaped elements (two-element arrays headed by a
non-numeric primitive, which the decoder would turn into an object), and
the whole tree is not a one-element array holding a primitive (which the
decoder unwraps). -/
theorem c1_json_round_trip (T : Json) (hT : safeJson T) (htop : topLevelSafe T) :
    linoToJson (some (jsonToLino T)) = some T := by
  have hne := jsonToLino_ne_empty T hT
  have hp := parseLino_jsonToLino T hT
  simp only [linoToJson]
  rw [if_neg hne, hp]
  show some (match convertParsedToJson (jsonToNode T) with
    | .arr (.cons x .nil) => if isPrimJsonB x then x else Json.arr (.cons x .nil)
    | r => r) = some T
  rw [dec_node T hT]
  cases T with
  | null => rfl
  | bool b => rfl
  | num n => rfl
  | str s => rfl
  | obj l => rfl
  | arr l =>
    cases l with
    | nil => rfl
    | cons x r =>
      cases r with
      | nil =>
        have hx : isPrimJsonB x = false := htop
        show some (if isPrimJsonB x = true then x else Json.arr (.cons x .nil)) = _
        rw [hx]
        rfl
      | cons y r2 => rfl

/-- C1 witness: the object `{"a": 1, "b": [true, "x"]}` satisfies the
safety conditions and round trips. -/
theorem c1_json_round_trip_witness :
    safeJson (Json.obj (.cons "a" (.num 1)
      (.cons "b" (.arr (.cons (.bool true) (.cons (.str "x") .nil))) .nil))) ∧
    linoToJson (some (jsonToLino (Json.obj (.cons "a" (.num 1)
      (.cons "b" (.arr (.cons (.bool true) (.cons (.str "x") .nil))) .nil))))) =
      some (Json.obj (.cons "a" (.num 1)
        (.cons "b" (.arr (.cons (.bool true) (.cons (.str "x") .nil))) .nil))) := by
  have hsafe : safeJson (Json.obj (.cons "a" (.num 1)
      (.cons "b" (.arr (.cons (.bool true) (.cons (.str "x") .nil))) .nil))) := by
    refine ⟨by decide, by decide, by decide, by decide, trivial,
      by decide, by decide, by decide, by decide,
      ⟨by decide, trivial, ⟨by decide, by decide⟩, trivial⟩, trivial⟩
  exact ⟨hsafe, c1_json_round_trip _ hsafe trivial⟩

end Follow
